import Mathlib

/-!
Verification development for the farm_dash repository (FarmDash16.py and
FarmDash9.py).  The two computational cores are embedded shallowly:

* the growth-stage enrichment engine (`process_crops` in FarmDash16.py,
  `process_and_sort_crops` in FarmDash9.py), and
* the spherical-excess polygon-area calculator (`calculate_polygon_area`
  in FarmDash16.py).

Calendar dates are modelled as epoch-day numbers (`ℤ`), with conversion
to and from proleptic-Gregorian civil triples exactly as Python's
`datetime` performs date arithmetic; per the specification's
precondition the reference instant is a normalized calendar date, so
`(now - p_date).days` is the difference of day numbers.  The progress
percentage of the stage engine is computed by the code in binary64
floating point (`int((daysPassed / total) * 100)`); it is modelled
bit-faithfully by `floatPct`, an integer-arithmetic implementation of
round-to-nearest-ties-even binary64 with a 53-bit significand and
unbounded exponent (exact for these magnitudes, far from overflow and
subnormals): one correctly rounded division, one correctly rounded
multiplication by 100, then truncation toward zero, exactly as CPython
evaluates the expression.  The polygon-area calculator, whose
trigonometric float error depends on the `libm` implementation, is
modelled in exact real arithmetic.  The `ValueError`
raised by `datetime.strptime` on an unparseable date is modelled by
`Option`: `none` propagates like the uncaught exception in
FarmDash16.py, and is caught (`except`) in FarmDash9.py.
-/

namespace FarmDash

/-! ## Calendar dates as epoch-day numbers -/

/-- Proleptic-Gregorian leap-year test, as used by Python `datetime`. -/
def isLeapYear (y : ℤ) : Bool :=
  y % 4 = 0 && (y % 100 ≠ 0 || y % 400 = 0)

/-- Number of days in month `m` of year `y` (Python `calendar`/`datetime`). -/
def daysInMonth (y m : ℤ) : ℤ :=
  if m = 1 then 31
  else if m = 2 then (if isLeapYear y then 29 else 28)
  else if m = 3 then 31
  else if m = 4 then 30
  else if m = 5 then 31
  else if m = 6 then 30
  else if m = 7 then 31
  else if m = 8 then 31
  else if m = 9 then 30
  else if m = 10 then 31
  else if m = 11 then 30
  else 31

/-- Epoch-day number of a civil date (days since 1970-01-01, Gregorian),
the standard `days_from_civil` algorithm with floor division, matching
the day arithmetic of Python `datetime.date`. -/
def daysFromCivil (y m d : ℤ) : ℤ :=
  let y1 : ℤ := if m ≤ 2 then y - 1 else y
  let era : ℤ := y1.fdiv 400
  let yoe : ℤ := y1 - era * 400
  let mp : ℤ := (m + 9).emod 12
  let doy : ℤ := (153 * mp + 2).fdiv 5 + d - 1
  let doe : ℤ := yoe * 365 + yoe.fdiv 4 - yoe.fdiv 100 + doy
  era * 146097 + doe - 719468

/-- Civil date (year, month, day) of an epoch-day number, the standard
`civil_from_days` inverse algorithm. -/
def civilFromDays (z0 : ℤ) : ℤ × ℤ × ℤ :=
  let z : ℤ := z0 + 719468
  let era : ℤ := z.fdiv 146097
  let doe : ℤ := z - era * 146097
  let yoe : ℤ := (doe - doe.fdiv 1460 + doe.fdiv 36524 - doe.fdiv 146096).fdiv 365
  let y : ℤ := yoe + era * 400
  let doy : ℤ := doe - (365 * yoe + yoe.fdiv 4 - yoe.fdiv 100)
  let mp : ℤ := (5 * doy + 2).fdiv 153
  let d : ℤ := doy - (153 * mp + 2).fdiv 5 + 1
  let m : ℤ := if mp < 10 then mp + 3 else mp - 9
  (if m ≤ 2 then y + 1 else y, m, d)

/-- Zero-pad the decimal representation of a nonnegative integer to
`w` digits (as `strftime` does for `%Y`, `%m`, `%d`). -/
def padNum (w : ℕ) (n : ℤ) : String :=
  let s := toString n
  if s.length < w then String.mk (List.replicate (w - s.length) '0') ++ s else s

/-- `p_date.strftime("%Y-%m-%d")`: format an epoch-day number as
`YYYY-MM-DD`. -/
def formatDate (day : ℤ) : String :=
  let c := civilFromDays day
  padNum 4 c.1 ++ "-" ++ padNum 2 c.2.1 ++ "-" ++ padNum 2 c.2.2

/-- Split a character list at every `-` (the semantics of splitting a
string on the one-character separator `-`: `n` separators yield `n + 1`
fields, empty fields included). -/
def splitDash : List Char → List (List Char)
  | [] => [[]]
  | c :: rest =>
    match splitDash rest with
    | [] => [[]]
    | f :: fs => if c = '-' then [] :: f :: fs else (c :: f) :: fs

/-- Numeric value of a list of decimal digit characters. -/
def digitsToNat (cs : List Char) : ℕ :=
  cs.foldl (fun acc c => 10 * acc + (c.toNat - 48)) 0

/-- Embedding of `datetime.strptime(s, "%Y-%m-%d")`: the year field is
exactly four digits, month and day are one or two digits, fields are
separated by `-` and the whole string must be consumed; the month must
be 1–12, the day 1–31 and valid for the month, and the year in
`datetime`'s range (≥ 1 suffices here, four digits bound it above).
Returns the epoch-day number, or `none` for the `ValueError` case. -/
def parseDate (s : String) : Option ℤ :=
  match splitDash s.data with
  | [ys, ms, ds] =>
    if ys.length = 4 && ys.all Char.isDigit
        && 1 ≤ ms.length && ms.length ≤ 2 && ms.all Char.isDigit
        && 1 ≤ ds.length && ds.length ≤ 2 && ds.all Char.isDigit then
      let y : ℤ := (digitsToNat ys : ℕ)
      let m : ℤ := (digitsToNat ms : ℕ)
      let d : ℤ := (digitsToNat ds : ℕ)
      if 1 ≤ y && 1 ≤ m && m ≤ 12 && 1 ≤ d && d ≤ daysInMonth y m then
        some (daysFromCivil y m d)
      else none
    else none
  | _ => none

/-- The `planted` field of a crop record arrives either as a string to
be parsed by `strptime` or as an already-parsed date value (the
`pd.to_datetime` branch of the `isinstance` test). -/
inductive PlantedVal where
  | pstr (s : String)
  | pdate (day : ℤ)
deriving DecidableEq, Repr

/-- `datetime.strptime(item['planted'], "%Y-%m-%d") if isinstance(item['planted'], str)
else pd.to_datetime(item['planted'])`, with `none` for the raised `ValueError`. -/
def parsePlanted : PlantedVal → Option ℤ
  | .pstr s => parseDate s
  | .pdate day => some day

/-! ## Crop records -/

/-- A crop record as stored in `st.session_state.crop_db`. -/
structure Item where
  name : String
  planted : PlantedVal
  qty : String
  area : String
  rainfall_mm : ℤ
deriving DecidableEq, Repr

/-! ## The crop knowledge base of FarmDash16.py

The icon strings below reproduce the source file's string literals
character for character (the file stores mojibake sequences, given here
as Unicode escapes). -/

/-- One entry of a `stages` list in `CROP_STAGES` (FarmDash16.py). -/
structure StageDef where
  name : String
  days : ℤ
  icon : String
  care : List String
deriving DecidableEq, Repr

/-- A value of the `CROP_STAGES` dict in FarmDash16.py. -/
structure Config where
  totalDuration : ℤ
  stages : List StageDef
deriving DecidableEq, Repr

/-- The `CROP_STAGES` dict of FarmDash16.py, as the lookup function
`CROP_STAGES.get`: `some` for the four known species, `none` otherwise. -/
def CROP_STAGES16 (name : String) : Option Config :=
  if name = "Sweet Corn" then some
    { totalDuration := 85
      stages :=
        [ ⟨"Emergence", 10, "ğŸŒ±", ["Protect from birds", "Keep soil surface moist"]⟩,
          ⟨"Vegetative", 35, "ğŸŒ¿", ["High nitrogen fertilizer", "Check for stalk borers"]⟩,
          ⟨"Tasseling", 20, "ğŸŒ½", ["Critical water stage", "Ensure pollination humidity"]⟩,
          ⟨"Ripening", 20, "âœ¨", ["Check kernel milkiness", "Prepare for harvest"]⟩ ] }
  else if name = "Beetroot" then some
    { totalDuration := 60
      stages :=
        [ ⟨"Germination", 10, "ğŸŒ±", ["Thin seedlings to 5cm", "Consistent moisture"]⟩,
          ⟨"Leaf Growth", 25, "ğŸƒ", ["Nitrogen liquid feed", "Keep weed-free"]⟩,
          ⟨"Bulbing", 25, "ğŸŸ£", ["Deep watering twice weekly", "Avoid high nitrogen now"]⟩ ] }
  else if name = "Cabbages" then some
    { totalDuration := 90
      stages :=
        [ ⟨"Establishment", 20, "ğŸŒ±", ["Damping-off prevention", "Cutworm check"]⟩,
          ⟨"Cupping", 35, "ğŸ¥¬", ["Regular irrigation", "Caterpillar monitoring"]⟩,
          ⟨"Heading", 35, "ğŸŸ¢", ["Maintain moisture to prevent splitting", "Final feed"]⟩ ] }
  else if name = "Onions" then some
    { totalDuration := 150
      stages :=
        [ ⟨"Vegetative", 50, "ğŸŒ±", ["Weed control is vital", "Nitrogen side-dressing"]⟩,
          ⟨"Bulbing", 70, "ğŸ§…", ["Reduce water as leaves yellow", "Stop feeding"]⟩,
          ⟨"Drying", 30, "â˜€ï¸", ["Stop all irrigation", "Wait for neck collapse"]⟩ ] }
  else none

/-- `CROP_STAGES.get(item['name'], {"totalDuration": 90, "stages": []})`. -/
def configFor16 (name : String) : Config :=
  (CROP_STAGES16 name).getD { totalDuration := 90, stages := [] }

/-! ## Growth-stage determination (FarmDash16.py, lines 112–123) -/

/-- The fixed fallback stage data initialised before the stage loop:
`curr_stage = "Ready"`, `curr_icon = "✅"` (the source's literal
character sequence), `stage_care = ["Harvest and cure."]`. -/
def readyFallback : String × String × List String :=
  ("Ready", "âœ…", ["Harvest and cure."])

/-- The stage loop of `process_crops`: walk the stages accumulating a
running day offset; `break` on the first stage whose window contains
`days_passed`, otherwise keep the initialised fallback values.  Returns
`(curr_stage, curr_icon, stage_care)`. -/
def stageWalk : List StageDef → ℤ → ℤ → String × String × List String
  | [], _, _ => readyFallback
  | s :: rest, days_passed, accumulated =>
    if accumulated ≤ days_passed ∧ days_passed < accumulated + s.days then
      (s.name, s.icon, s.care)
    else stageWalk rest days_passed (accumulated + s.days)

/-- The stage loop viewed as a search: `some s` for the stage the loop
breaks on, `none` when the loop falls through to the fallback. -/
def findStage : List StageDef → ℤ → ℤ → Option StageDef
  | [], _, _ => none
  | s :: rest, days_passed, accumulated =>
    if accumulated ≤ days_passed ∧ days_passed < accumulated + s.days then
      some s
    else findStage rest days_passed (accumulated + s.days)

/-! ## Binary64 floating-point model

The progress computation runs Python float arithmetic:
`int((days_passed / total_days) * 100)`.  CPython divides the two
integers with one correctly rounded binary64 division, multiplies by
the exact constant `100.0` with one correctly rounded binary64
multiplication, and truncates toward zero.  We model binary64
round-to-nearest, ties-to-even with an unbounded exponent range — exact
for every value in the normal binary64 range, which covers everything
these date quantities can produce (no overflow, underflow or subnormals
are reachable).

The model is implemented over plain integer arithmetic (mantissa and
exponent), so that concrete runs of the program evaluate inside the
kernel; `flQ` below is the rational-level characterisation used by the
proofs, and `flInt_val` proves the two agree. -/

/-- Bit length of a natural number (`0` for `0`), via structural fuel. -/
def blAux : ℕ → ℕ → ℕ
  | 0, _ => 0
  | fuel + 1, n => if n = 0 then 0 else blAux fuel (n / 2) + 1

/-- Bit length: the unique `k` with `2 ^ (k - 1) ≤ n < 2 ^ k` for
positive `n`. -/
def bl (n : ℕ) : ℕ := blAux n n

/-- Round the rational `p / q` (for `q > 0`) to the nearest integer,
ties to even. -/
def rneInt (p q : ℤ) : ℤ :=
  let n := p.fdiv q
  let r := p - n * q
  if 2 * r < q then n
  else if q < 2 * r then n + 1
  else if n % 2 = 0 then n else n + 1

/-- Floor of the base-2 logarithm of `a / b`, for positive `a`, `b`:
the unique `e` with `2 ^ e ≤ a / b < 2 ^ (e + 1)`. -/
def ilog (a b : ℤ) : ℤ :=
  let d : ℤ := (bl a.toNat : ℤ) - (bl b.toNat : ℤ)
  let ok : Bool := if 0 ≤ d then decide (b * 2 ^ d.toNat ≤ a) else decide (b ≤ a * 2 ^ (-d).toNat)
  if ok then d else d - 1

/-- Binary64 rounding of the rational `a / b` (for `b > 0`), returned
as a mantissa–exponent pair `(m, k)` denoting `m * 2 ^ k`, with
`2 ^ 52 ≤ |m| < 2 ^ 53` (or `m = 2 ^ 53` after a carry) for `a ≠ 0`. -/
def flInt (a b : ℤ) : ℤ × ℤ :=
  if a = 0 then (0, 0)
  else
    let n := |a|
    let e := ilog n b
    let m :=
      if 0 ≤ 52 - e then rneInt (n * 2 ^ (52 - e).toNat) b
      else rneInt n (b * 2 ^ (e - 52).toNat)
    (if a < 0 then -m else m, e - 52)

/-- The exact product of a dyadic value `m * 2 ^ k` with the exactly
representable constant 100, as a fraction (numerator, positive
denominator). -/
def mul100 (p : ℤ × ℤ) : ℤ × ℤ :=
  if 0 ≤ p.2 then (p.1 * 100 * 2 ^ p.2.toNat, 1) else (p.1 * 100, 2 ^ (-p.2).toNat)

/-- Python `int()` (truncation toward zero) of a dyadic value
`m * 2 ^ k`. -/
def truncDyadic (p : ℤ × ℤ) : ℤ :=
  if 0 ≤ p.2 then p.1 * 2 ^ p.2.toNat else p.1.tdiv (2 ^ (-p.2).toNat)

/-- `int((dp / total) * 100)` as CPython computes it: one correctly
rounded binary64 division, one correctly rounded binary64
multiplication by 100, then truncation toward zero. -/
def floatPct (dp total : ℤ) : ℤ :=
  let y := flInt dp total
  let z := mul100 y
  truncDyadic (flInt z.1 z.2)

/-- The rational value of a mantissa–exponent pair. -/
def dyadicVal (p : ℤ × ℤ) : ℚ := (p.1 : ℚ) * 2 ^ p.2

/-- Round a rational to the nearest integer, ties to even
(rational-level characterisation of `rneInt`). -/
def rneQ (x : ℚ) : ℤ :=
  if x - ⌊x⌋ < 1 / 2 then ⌊x⌋
  else if 1 / 2 < x - ⌊x⌋ then ⌊x⌋ + 1
  else if ⌊x⌋ % 2 = 0 then ⌊x⌋ else ⌊x⌋ + 1

/-- Binary64 rounding of a positive rational (rational level):
significand scaled to `[2 ^ 52, 2 ^ 53)`, rounded half-even, scaled
back. -/
def flQpos (q : ℚ) : ℚ :=
  (rneQ (q * 2 ^ ((52 : ℤ) - Int.log 2 q)) : ℚ) * 2 ^ (Int.log 2 q - (52 : ℤ))

/-- Binary64 round-to-nearest, ties-to-even, unbounded exponent
(rational-level characterisation of `flInt`). -/
def flQ (q : ℚ) : ℚ :=
  if q = 0 then 0 else if 0 < q then flQpos q else -flQpos (-q)

/-- Python `int()` on a rational: truncation toward zero. -/
def pyInt (x : ℚ) : ℤ := if x < 0 then -⌊-x⌋ else ⌊x⌋

/-! ## Record enrichment (FarmDash16.py `process_crops`) -/

/-- The output dict appended to `processed` by `process_crops`
(`{**item, "planted_str": …, "progress": …, "status": …, "days_left": …,
"overdue_label": …, "is_harvested": …, "care_steps": …}`). -/
structure Enriched16 extends Item where
  planted_str : String
  progress : ℤ
  status : String
  days_left : ℤ
  overdue_label : String
  is_harvested : Bool
  care_steps : List String
deriving DecidableEq, Repr

/-- The body of the `process_crops` loop after the planted date has
been parsed: `p_day` is the parsed planting day, `now` the normalized
reference date.  `int((days_passed / total_days) * 100)` is the
binary64 computation `floatPct days_passed total_days`. -/
def enrichCore16 (item : Item) (p_day now : ℤ) : Enriched16 :=
  let config := configFor16 item.name
  let total_days := config.totalDuration
  let ready_date := p_day + total_days
  let days_passed := now - p_day
  let walk := stageWalk config.stages days_passed 0
  let days_left := ready_date - now
  let is_harvested : Bool := days_left < 0
  let progress : ℤ :=
    if is_harvested then 100 else max 0 (min 100 (floatPct days_passed total_days))
  { item with
    planted_str := formatDate p_day
    progress := progress
    status := if is_harvested then "Harvested" else walk.2.1 ++ " " ++ walk.1
    days_left := days_left
    overdue_label :=
      if is_harvested then "Overdue by " ++ toString |days_left|
      else toString days_left ++ " days left"
    is_harvested := is_harvested
    care_steps := walk.2.2 }

/-- One iteration of the `process_crops` loop: `none` when
`datetime.strptime` raises on the record's planted date. -/
def processItem16 (item : Item) (now : ℤ) : Option Enriched16 :=
  (parsePlanted item.planted).map (fun p_day => enrichCore16 item p_day now)

/-- `process_crops(data)` of FarmDash16.py: enrich each record in input
order; an uncaught `ValueError` from `strptime` aborts the whole loop,
modelled by `none`. -/
def process_crops (data : List Item) (now : ℤ) : Option (List Enriched16) :=
  match data with
  | [] => some []
  | item :: rest => do
    let e ← processItem16 item now
    let es ← process_crops rest now
    pure (e :: es)

/-! ## FarmDash9.py: `process_and_sort_crops`

FarmDash9.py has its own `CROP_STAGES` dict holding only total
durations (and an extra species, Okra), wraps the date parse in
`try/except` with fallback `p_date = now`, computes progress without an
upper `min(100, ·)` clamp, and sorts the processed list. -/

/-- The `CROP_STAGES` dict of FarmDash9.py as the lookup
`CROP_STAGES.get`, returning the `totalDuration` value. -/
def CROP_STAGES9 (name : String) : Option ℤ :=
  if name = "Beetroot" then some 60
  else if name = "Sweet Corn" then some 85
  else if name = "Cabbages" then some 90
  else if name = "Onions" then some 150
  else if name = "Okra" then some 65
  else none

/-- `CROP_STAGES.get(item['name'], {"totalDuration": 90})['totalDuration']`. -/
def duration9 (name : String) : ℤ :=
  (CROP_STAGES9 name).getD 90

/-- The output dict appended to `processed` by `process_and_sort_crops`
(`{**item, "planted_str": …, "ready_date": …, "progress": …,
"status": …, "overdue_label": …, "is_harvested": …}`). -/
structure Enriched9 extends Item where
  planted_str : String
  ready_date : ℤ
  progress : ℤ
  status : String
  overdue_label : String
  is_harvested : Bool
deriving DecidableEq, Repr

/-- The body of the `process_and_sort_crops` loop after `p_date` has
been determined (`p_day` is `p_date`, `now` the normalized reference
date).  `int(((duration - days_left) / duration) * 100)` is the
binary64 computation `floatPct (duration - days_left) duration`; note
there is no upper `min(100, ·)` clamp in this variant. -/
def enrichCore9 (item : Item) (p_day now : ℤ) : Enriched9 :=
  let duration := duration9 item.name
  let ready_date := p_day + duration
  let days_left := ready_date - now
  let is_harvested : Bool := days_left < 0
  let progress : ℤ :=
    if is_harvested then 100 else max 0 (floatPct (duration - days_left) duration)
  { item with
    planted_str := formatDate p_day
    ready_date := ready_date
    progress := progress
    status := if is_harvested then "Harvested" else "Growing"
    overdue_label :=
      if is_harvested then "Overdue by " ++ toString |days_left|
      else toString days_left ++ " days left"
    is_harvested := is_harvested }

/-- One iteration of the `process_and_sort_crops` loop: the
`try/except` substitutes `p_date = now` when the parse raises. -/
def processItem9 (item : Item) (now : ℤ) : Enriched9 :=
  enrichCore9 item ((parsePlanted item.planted).getD now) now

/-- The Python sort key
`(x['is_harvested'], x['ready_date'] if not x['is_harvested'] else -x['ready_date'].timestamp())`
compared lexicographically (`False < True`; `timestamp` is strictly
increasing in the date, so comparing `-timestamp` is comparing negated
day numbers). -/
def sortKey (x : Enriched9) : Bool × ℤ :=
  (x.is_harvested, if x.is_harvested then -x.ready_date else x.ready_date)

/-- Non-strict lexicographic comparison of sort keys, the order by
which Python's stable `list.sort` arranges the output. -/
def sortLe (a b : Enriched9) : Bool :=
  (!(sortKey a).1 && (sortKey b).1)
    || ((sortKey a).1 == (sortKey b).1 && (sortKey a).2 ≤ (sortKey b).2)

/-- `process_and_sort_crops(data)` of FarmDash9.py: enrich every record
(no per-record abort), then `processed.sort(key=…)` — a stable sort by
`sortKey`, modelled by the stable `List.mergeSort`. -/
def process_and_sort_crops (data : List Item) (now : ℤ) : List Enriched9 :=
  (data.map (fun item => processItem9 item now)).mergeSort sortLe

/-! ## FarmDash16.py: `calculate_polygon_area`

Vertices are `[lon, lat]` pairs (GeoJSON order), modelled as `ℝ × ℝ`
with `.1` the longitude and `.2` the latitude; float arithmetic is
modelled as exact real arithmetic. -/

/-- `math.radians`: degrees to radians. -/
noncomputable def radians (x : ℝ) : ℝ := x * (Real.pi / 180)

/-- Earth's radius in metres (`R = 6378137` in the source). -/
def Rearth : ℝ := 6378137

/-- The loop body's contribution for the consecutive pair `(p1, p2)`:
`math.radians(p2[0] - p1[0]) * (2 + math.sin(math.radians(p1[1])) + math.sin(math.radians(p2[1])))`. -/
noncomputable def edgeTerm (p1 p2 : ℝ × ℝ) : ℝ :=
  radians (p2.1 - p1.1) * (2 + Real.sin (radians p1.2) + Real.sin (radians p2.2))

/-- The accumulator after the loop `for i in range(len(coords))` with
`p1 = coords[i]`, `p2 = coords[(i + 1) % len(coords)]`. -/
noncomputable def areaAcc (coords : List (ℝ × ℝ)) : ℝ :=
  ∑ i ∈ Finset.range coords.length,
    edgeTerm (coords.getD i (0, 0)) (coords.getD ((i + 1) % coords.length) (0, 0))

/-- `calculate_polygon_area(coords)` of FarmDash16.py:
`if not coords or len(coords) < 3: return 0`, else
`abs(area * R * R / 2.0)`. -/
noncomputable def calculate_polygon_area (coords : List (ℝ × ℝ)) : ℝ :=
  if coords.length < 3 then 0
  else |areaAcc coords * Rearth * Rearth / 2|

/-- Modelled from the spec for the refinement claim about the area
formula: the consecutive vertex pairs "(p1, p2), wrapping last to
first" of a vertex ring. -/
def ringPairs : List (ℝ × ℝ) → List ((ℝ × ℝ) × (ℝ × ℝ))
  | [] => []
  | x :: xs => (x :: xs).zip (xs ++ [x])

/-- Modelled from the spec for the refinement claim about the area
formula: the accumulator `A`, the "sum over consecutive vertex pairs
(p1, p2), wrapping last to first, of
radians(p2.lon - p1.lon) * (2 + sin(radians(p1.lat)) + sin(radians(p2.lat)))". -/
noncomputable def specAccum (coords : List (ℝ × ℝ)) : ℝ :=
  ((ringPairs coords).map (fun p => edgeTerm p.1 p.2)).sum

/-! ## Helper lemmas: the binary64 model -/

/-- Claim-side progress formula:
`clamp(floor(daysPassed / totalDurationDays * 100), 0, 100)` with the
quotient read as an exact rational. -/
def specProgress (dp total : ℤ) : ℤ :=
  max 0 (min 100 ⌊(dp : ℚ) / (total : ℚ) * 100⌋)

/-- The floor of the exact rational `p / q` is the floor integer
division, for a positive divisor. -/
theorem floor_int_div (p : ℤ) {q : ℤ} (hq : 0 < q) : ⌊(p : ℚ) / (q : ℚ)⌋ = p.fdiv q := by
  have hQ : ((q.toNat : ℕ) : ℚ) = (q : ℚ) := by
    exact_mod_cast congrArg (fun z : ℤ => (z : ℚ)) (Int.toNat_of_nonneg hq.le)
  rw [← hQ, Rat.floor_intCast_div_natCast, Int.toNat_of_nonneg hq.le,
    Int.fdiv_eq_ediv _ hq.le]

theorem le_rneQ (x : ℚ) : x - 1 / 2 ≤ (rneQ x : ℚ) := by
  have hfl : (⌊x⌋ : ℚ) ≤ x := Int.floor_le x
  have hfl2 : x < (⌊x⌋ : ℚ) + 1 := Int.lt_floor_add_one x
  unfold rneQ
  split
  · rename_i h
    push_cast
    linarith
  · rename_i h
    push_neg at h
    split
    · push_cast
      linarith
    · rename_i h2
      push_neg at h2
      have hx : x - ⌊x⌋ = 1 / 2 := le_antisymm h2 h
      split <;> push_cast <;> linarith

theorem rneQ_le (x : ℚ) : (rneQ x : ℚ) ≤ x + 1 / 2 := by
  have hfl : (⌊x⌋ : ℚ) ≤ x := Int.floor_le x
  unfold rneQ
  split
  · push_cast
    linarith
  · rename_i h1
    push_neg at h1
    split
    · push_cast
      linarith
    · rename_i h2
      push_neg at h2
      have hx : x - ⌊x⌋ = 1 / 2 := le_antisymm h2 h1
      split <;> push_cast <;> linarith

theorem rneQ_floor_bounds (x : ℚ) : ⌊x⌋ ≤ rneQ x ∧ rneQ x ≤ ⌊x⌋ + 1 := by
  unfold rneQ
  split
  · omega
  · split
    · omega
    · split <;> omega

theorem rneQ_mono {x y : ℚ} (h : x ≤ y) : rneQ x ≤ rneQ y := by
  have hfm : ⌊x⌋ ≤ ⌊y⌋ := Int.floor_le_floor h
  rcases lt_or_eq_of_le hfm with hlt | heq
  · have h1 := (rneQ_floor_bounds x).2
    have h2 := (rneQ_floor_bounds y).1
    omega
  · by_cases hx1 : x - ⌊x⌋ < 1 / 2
    · have h1 : rneQ x = ⌊x⌋ := by
        unfold rneQ
        rw [if_pos hx1]
      have h2 := (rneQ_floor_bounds y).1
      omega
    · push_neg at hx1
      have hy1 : ¬ (y - ⌊y⌋ < 1 / 2) := by
        push_neg
        rw [← heq]
        linarith
      by_cases hx2 : 1 / 2 < x - ⌊x⌋
      · have hy2 : 1 / 2 < y - ⌊y⌋ := by
          rw [← heq]
          linarith
        have h1 : rneQ x = ⌊x⌋ + 1 := by
          unfold rneQ
          rw [if_neg (not_lt.mpr hx1), if_pos hx2]
        have h2 : rneQ y = ⌊y⌋ + 1 := by
          unfold rneQ
          rw [if_neg hy1, if_pos hy2]
        omega
      · push_neg at hx2
        have hxeq : x - ⌊x⌋ = 1 / 2 := le_antisymm hx2 hx1
        by_cases hy2 : 1 / 2 < y - ⌊y⌋
        · have h1 : rneQ x ≤ ⌊x⌋ + 1 := (rneQ_floor_bounds x).2
          have h2 : rneQ y = ⌊y⌋ + 1 := by
            unfold rneQ
            rw [if_neg hy1, if_pos hy2]
          omega
        · push_neg at hy2
          have hyeq : y - ⌊y⌋ = 1 / 2 := by
            have : 1 / 2 ≤ y - ⌊y⌋ := not_lt.mp hy1
            linarith
          have hxy : x = y := by
            have hq : (⌊x⌋ : ℚ) = (⌊y⌋ : ℚ) := by
              exact_mod_cast congrArg (fun z : ℤ => (z : ℚ)) heq
            linarith
          rw [hxy]

/-- The integer implementation of half-even rounding computes `rneQ`
of the quotient. -/
theorem rneInt_eq (p : ℤ) {q : ℤ} (hq : 0 < q) : rneInt p q = rneQ ((p : ℚ) / q) := by
  have hqQ : (0 : ℚ) < (q : ℚ) := by exact_mod_cast hq
  have hfl : ⌊(p : ℚ) / q⌋ = p.fdiv q := floor_int_div p hq
  have hfr : (p : ℚ) / q - (p.fdiv q : ℚ) = ((p - p.fdiv q * q : ℤ) : ℚ) / q := by
    push_cast
    field_simp
    ring
  have hc1 : ((p - p.fdiv q * q : ℤ) : ℚ) / q < 1 / 2 ↔ 2 * (p - p.fdiv q * q) < q := by
    rw [div_lt_div_iff₀ hqQ (by norm_num : (0 : ℚ) < 2)]
    constructor
    · intro h
      have h' : (p - p.fdiv q * q) * 2 < 1 * q := by exact_mod_cast h
      omega
    · intro h
      have h' : (p - p.fdiv q * q) * 2 < 1 * q := by omega
      exact_mod_cast h'
  have hc2 : (1 : ℚ) / 2 < ((p - p.fdiv q * q : ℤ) : ℚ) / q ↔ q < 2 * (p - p.fdiv q * q) := by
    rw [div_lt_div_iff₀ (by norm_num : (0 : ℚ) < 2) hqQ]
    constructor
    · intro h
      have h' : 1 * q < (p - p.fdiv q * q) * 2 := by exact_mod_cast h
      omega
    · intro h
      have h' : 1 * q < (p - p.fdiv q * q) * 2 := by omega
      exact_mod_cast h'
  unfold rneInt rneQ
  rw [hfl, hfr]
  by_cases h1 : 2 * (p - p.fdiv q * q) < q
  · rw [if_pos (hc1.mpr h1), if_pos h1]
  · rw [if_neg (fun hcon => h1 (hc1.mp hcon)), if_neg h1]
    by_cases h2 : q < 2 * (p - p.fdiv q * q)
    · rw [if_pos (hc2.mpr h2), if_pos h2]
    · rw [if_neg (fun hcon => h2 (hc2.mp hcon)), if_neg h2]

theorem blAux_zero (fuel : ℕ) : blAux fuel 0 = 0 := by
  cases fuel <;> simp [blAux]

theorem blAux_spec : ∀ fuel n : ℕ, 0 < n → n ≤ fuel →
    2 ^ (blAux fuel n - 1) ≤ n ∧ n < 2 ^ blAux fuel n := by
  intro fuel
  induction fuel with
  | zero => intro n h1 h2; omega
  | succ f ih =>
    intro n h1 h2
    rw [blAux, if_neg (by omega)]
    by_cases hn : n = 1
    · subst hn
      norm_num [blAux_zero]
    · have hhalf : 0 < n / 2 := by omega
      have hle : n / 2 ≤ f := by omega
      obtain ⟨ha, hb⟩ := ih (n / 2) hhalf hle
      have hbpos : 0 < blAux f (n / 2) := by
        by_contra hcon
        push_neg at hcon
        have h0 : blAux f (n / 2) = 0 := by omega
        rw [h0] at hb
        simp at hb
        omega
      have hq1 : 2 ^ blAux f (n / 2) = 2 * 2 ^ (blAux f (n / 2) - 1) := by
        have he : blAux f (n / 2) - 1 + 1 = blAux f (n / 2) := by omega
        conv_lhs => rw [← he]
        rw [pow_succ]
        ring
      have hq2 : 2 ^ (blAux f (n / 2) + 1) = 2 * 2 ^ blAux f (n / 2) := by
        rw [pow_succ]
        ring
      have hgoal1 : blAux f (n / 2) + 1 - 1 = blAux f (n / 2) := by omega
      rw [hgoal1]
      omega

/-- For positive `n`, the bit length brackets `n` between consecutive
powers of two. -/
theorem bl_spec {n : ℕ} (h : 0 < n) : 2 ^ (bl n - 1) ≤ n ∧ n < 2 ^ bl n :=
  blAux_spec n n h le_rfl

theorem bl_pos {n : ℕ} (h : 0 < n) : 0 < bl n := by
  obtain ⟨-, hb⟩ := bl_spec h
  by_contra hcon
  push_neg at hcon
  interval_cases (bl n)
  simp at hb
  omega

/-- The base-2 cast simplification for `Int.log` statements over `ℚ`. -/
theorem log2_le_self {q : ℚ} (hq : 0 < q) : (2 : ℚ) ^ Int.log 2 q ≤ q := by
  have h := Int.zpow_log_le_self (b := 2) (R := ℚ) (by norm_num) hq
  have hc : ((2 : ℕ) : ℚ) = (2 : ℚ) := by norm_num
  rw [hc] at h
  exact h

theorem lt_log2_succ {q : ℚ} : q < (2 : ℚ) ^ (Int.log 2 q + 1) := by
  have h := Int.lt_zpow_succ_log_self (b := 2) (R := ℚ) (by norm_num) q
  have hc : ((2 : ℕ) : ℚ) = (2 : ℚ) := by norm_num
  rw [hc] at h
  exact h

/-- `Int.log 2` is determined by the power-of-two bracketing. -/
theorem log2_eq_of {q : ℚ} {e : ℤ} (h1 : (2 : ℚ) ^ e ≤ q) (h2 : q < 2 ^ (e + 1)) :
    Int.log 2 q = e := by
  have hq : 0 < q := lt_of_lt_of_le (zpow_pos (by norm_num) e) h1
  have l1 : Int.log 2 q < e + 1 :=
    (zpow_lt_zpow_iff_right₀ (by norm_num : (1 : ℚ) < 2)).mp (lt_of_le_of_lt (log2_le_self hq) h2)
  have l2 : e < Int.log 2 q + 1 :=
    (zpow_lt_zpow_iff_right₀ (by norm_num : (1 : ℚ) < 2)).mp (lt_of_le_of_lt h1 lt_log2_succ)
  omega

/-- An integer within strictly less than one half below another
integer is at least that integer. -/
theorem intCast_le_of_half {m n : ℤ} (h : (m : ℚ) - 1 / 2 ≤ (n : ℚ)) : m ≤ n := by
  by_contra hcon
  push_neg at hcon
  have h1 : n ≤ m - 1 := by omega
  have h2 : ((n : ℤ) : ℚ) ≤ ((m - 1 : ℤ) : ℚ) := by exact_mod_cast h1
  push_cast at h2
  linarith

/-- An integer within strictly less than one half above another
integer is at most that integer. -/
theorem le_intCast_of_half {m n : ℤ} (h : (n : ℚ) ≤ (m : ℚ) + 1 / 2) : n ≤ m := by
  by_contra hcon
  push_neg at hcon
  have h1 : m + 1 ≤ n := by omega
  have h2 : ((m + 1 : ℤ) : ℚ) ≤ ((n : ℤ) : ℚ) := by exact_mod_cast h1
  push_cast at h2
  linarith

theorem flQpos_lower {q : ℚ} (hq : 0 < q) : (2 : ℚ) ^ Int.log 2 q ≤ flQpos q := by
  set e := Int.log 2 q with he
  have hZ : ((2 ^ 52 : ℤ) : ℚ) = (2 : ℚ) ^ (52 : ℤ) := by norm_num
  have hy : (2 : ℚ) ^ (52 : ℤ) ≤ q * 2 ^ ((52 : ℤ) - e) := by
    have h1 : (2 : ℚ) ^ e * 2 ^ ((52 : ℤ) - e) ≤ q * 2 ^ ((52 : ℤ) - e) :=
      mul_le_mul_of_nonneg_right (log2_le_self hq) (zpow_pos (by norm_num) _).le
    calc (2 : ℚ) ^ (52 : ℤ) = 2 ^ e * 2 ^ ((52 : ℤ) - e) := by
          rw [← zpow_add₀ (by norm_num : (2 : ℚ) ≠ 0)]
          norm_num
      _ ≤ q * 2 ^ ((52 : ℤ) - e) := h1
  have hb := le_rneQ (q * 2 ^ ((52 : ℤ) - e))
  have hhalf : ((2 ^ 52 : ℤ) : ℚ) - 1 / 2 ≤ (rneQ (q * 2 ^ ((52 : ℤ) - e)) : ℚ) := by
    rw [hZ]
    linarith
  have hint2 : (2 ^ 52 : ℤ) ≤ rneQ (q * 2 ^ ((52 : ℤ) - e)) := intCast_le_of_half hhalf
  have hm : (2 : ℚ) ^ (52 : ℤ) ≤ (rneQ (q * 2 ^ ((52 : ℤ) - e)) : ℚ) := by
    rw [← hZ]
    exact_mod_cast hint2
  calc (2 : ℚ) ^ e = 2 ^ (52 : ℤ) * 2 ^ (e - 52) := by
        rw [← zpow_add₀ (by norm_num : (2 : ℚ) ≠ 0)]
        norm_num
    _ ≤ (rneQ (q * 2 ^ ((52 : ℤ) - e)) : ℚ) * 2 ^ (e - 52) :=
        mul_le_mul_of_nonneg_right hm (zpow_pos (by norm_num) _).le
    _ = flQpos q := rfl

theorem flQpos_upper {q : ℚ} (hq : 0 < q) : flQpos q ≤ (2 : ℚ) ^ (Int.log 2 q + 1) := by
  set e := Int.log 2 q with he
  have hZ : ((2 ^ 53 : ℤ) : ℚ) = (2 : ℚ) ^ (53 : ℤ) := by norm_num
  have hy : q * 2 ^ ((52 : ℤ) - e) < (2 : ℚ) ^ (53 : ℤ) := by
    have h1 : q * 2 ^ ((52 : ℤ) - e) < 2 ^ (e + 1) * 2 ^ ((52 : ℤ) - e) :=
      mul_lt_mul_of_pos_right lt_log2_succ (zpow_pos (by norm_num) _)
    calc q * 2 ^ ((52 : ℤ) - e) < 2 ^ (e + 1) * 2 ^ ((52 : ℤ) - e) := h1
      _ = (2 : ℚ) ^ (53 : ℤ) := by
          rw [← zpow_add₀ (by norm_num : (2 : ℚ) ≠ 0)]
          ring_nf
  have hb := rneQ_le (q * 2 ^ ((52 : ℤ) - e))
  have hhalf : (rneQ (q * 2 ^ ((52 : ℤ) - e)) : ℚ) ≤ ((2 ^ 53 : ℤ) : ℚ) + 1 / 2 := by
    rw [hZ]
    linarith
  have hint2 : rneQ (q * 2 ^ ((52 : ℤ) - e)) ≤ (2 ^ 53 : ℤ) := le_intCast_of_half hhalf
  have hm : (rneQ (q * 2 ^ ((52 : ℤ) - e)) : ℚ) ≤ (2 : ℚ) ^ (53 : ℤ) := by
    rw [← hZ]
    exact_mod_cast hint2
  calc flQpos q = (rneQ (q * 2 ^ ((52 : ℤ) - e)) : ℚ) * 2 ^ (e - 52) := rfl
    _ ≤ (2 : ℚ) ^ (53 : ℤ) * 2 ^ (e - 52) :=
        mul_le_mul_of_nonneg_right hm (zpow_pos (by norm_num) _).le
    _ = (2 : ℚ) ^ (e + 1) := by
        rw [← zpow_add₀ (by norm_num : (2 : ℚ) ≠ 0)]
        ring_nf

theorem flQpos_pos {q : ℚ} (hq : 0 < q) : 0 < flQpos q :=
  lt_of_lt_of_le (zpow_pos (by norm_num) _) (flQpos_lower hq)

theorem flQpos_mono {q r : ℚ} (hq : 0 < q) (h : q ≤ r) : flQpos q ≤ flQpos r := by
  have hr : 0 < r := lt_of_lt_of_le hq h
  have hlog : Int.log 2 q ≤ Int.log 2 r := Int.log_mono_right hq h
  rcases lt_or_eq_of_le hlog with hlt | heq
  · calc flQpos q ≤ (2 : ℚ) ^ (Int.log 2 q + 1) := flQpos_upper hq
      _ ≤ (2 : ℚ) ^ Int.log 2 r := zpow_le_zpow_right₀ (by norm_num) (by omega)
      _ ≤ flQpos r := flQpos_lower hr
  · unfold flQpos
    rw [← heq]
    have harg : q * 2 ^ ((52 : ℤ) - Int.log 2 q) ≤ r * 2 ^ ((52 : ℤ) - Int.log 2 q) :=
      mul_le_mul_of_nonneg_right h (zpow_pos (by norm_num) _).le
    exact mul_le_mul_of_nonneg_right
      (by exact_mod_cast rneQ_mono harg) (zpow_pos (by norm_num) _).le

theorem flQ_mono {q r : ℚ} (h : q ≤ r) : flQ q ≤ flQ r := by
  unfold flQ
  rcases lt_trichotomy q 0 with hq | hq | hq
  · rw [if_neg hq.ne, if_neg (not_lt.mpr hq.le)]
    rcases lt_trichotomy r 0 with hr | hr | hr
    · rw [if_neg hr.ne, if_neg (not_lt.mpr hr.le)]
      have hmono := flQpos_mono (neg_pos.mpr hr) (neg_le_neg h)
      linarith
    · rw [if_pos hr]
      have hpos := flQpos_pos (neg_pos.mpr hq)
      linarith
    · rw [if_neg (ne_of_gt hr), if_pos hr]
      have h1 := flQpos_pos (neg_pos.mpr hq)
      have h2 := flQpos_pos hr
      linarith
  · subst hq
    rw [if_pos rfl]
    rcases eq_or_lt_of_le h with hr | hr
    · rw [← hr, if_pos rfl]
    · rw [if_neg (ne_of_gt hr), if_pos hr]
      exact (flQpos_pos hr).le
  · rw [if_neg (ne_of_gt hq), if_pos hq]
    have hr : 0 < r := lt_of_lt_of_le hq h
    rw [if_neg (ne_of_gt hr), if_pos hr]
    exact flQpos_mono hq h

theorem natPow_cast_q (k : ℕ) : ((2 ^ k : ℕ) : ℚ) = (2 : ℚ) ^ (k : ℤ) := by
  push_cast
  rw [zpow_natCast]

theorem intPow_cast_q (k : ℕ) : ((2 ^ k : ℤ) : ℚ) = (2 : ℚ) ^ (k : ℤ) := by
  push_cast
  rw [zpow_natCast]

/-- The integer exponent search brackets `a / b` between consecutive
powers of two. -/
theorem ilog_spec {a b : ℤ} (ha : 0 < a) (hb : 0 < b) :
    (2 : ℚ) ^ ilog a b ≤ (a : ℚ) / b ∧ (a : ℚ) / b < 2 ^ (ilog a b + 1) := by
  have hbQ : (0 : ℚ) < b := by exact_mod_cast hb
  have hA : 0 < a.toNat := by omega
  have hB : 0 < b.toNat := by omega
  obtain ⟨ha1, ha2⟩ := bl_spec hA
  obtain ⟨hb1, hb2⟩ := bl_spec hB
  have hla := bl_pos hA
  have hlb := bl_pos hB
  have caF : ((a.toNat : ℕ) : ℚ) = (a : ℚ) := by
    exact_mod_cast congrArg (fun z : ℤ => (z : ℚ)) (Int.toNat_of_nonneg ha.le)
  have cbF : ((b.toNat : ℕ) : ℚ) = (b : ℚ) := by
    exact_mod_cast congrArg (fun z : ℤ => (z : ℚ)) (Int.toNat_of_nonneg hb.le)
  have fa1 : (2 : ℚ) ^ ((bl a.toNat : ℤ) - 1) ≤ (a : ℚ) := by
    rw [show (bl a.toNat : ℤ) - 1 = ((bl a.toNat - 1 : ℕ) : ℤ) by omega, ← natPow_cast_q,
      ← caF]
    exact_mod_cast ha1
  have fa2 : (a : ℚ) < (2 : ℚ) ^ ((bl a.toNat : ℤ)) := by
    rw [← natPow_cast_q, ← caF]
    exact_mod_cast ha2
  have fb1 : (2 : ℚ) ^ ((bl b.toNat : ℤ) - 1) ≤ (b : ℚ) := by
    rw [show (bl b.toNat : ℤ) - 1 = ((bl b.toNat - 1 : ℕ) : ℤ) by omega, ← natPow_cast_q,
      ← cbF]
    exact_mod_cast hb1
  have fb2 : (b : ℚ) < (2 : ℚ) ^ ((bl b.toNat : ℤ)) := by
    rw [← natPow_cast_q, ← cbF]
    exact_mod_cast hb2
  have hlow : (2 : ℚ) ^ ((bl a.toNat : ℤ) - (bl b.toNat : ℤ) - 1) ≤ (a : ℚ) / b := by
    rw [le_div_iff₀ hbQ]
    calc (2 : ℚ) ^ ((bl a.toNat : ℤ) - (bl b.toNat : ℤ) - 1) * b
        ≤ (2 : ℚ) ^ ((bl a.toNat : ℤ) - (bl b.toNat : ℤ) - 1) * 2 ^ ((bl b.toNat : ℤ)) :=
          mul_le_mul_of_nonneg_left fb2.le (zpow_pos (by norm_num) _).le
      _ = (2 : ℚ) ^ ((bl a.toNat : ℤ) - 1) := by
          rw [← zpow_add₀ (by norm_num : (2 : ℚ) ≠ 0)]
          ring_nf
      _ ≤ (a : ℚ) := fa1
  have hhigh : (a : ℚ) / b < 2 ^ ((bl a.toNat : ℤ) - (bl b.toNat : ℤ) + 1) := by
    rw [div_lt_iff₀ hbQ]
    calc (a : ℚ) < (2 : ℚ) ^ ((bl a.toNat : ℤ)) := fa2
      _ = (2 : ℚ) ^ ((bl a.toNat : ℤ) - (bl b.toNat : ℤ) + 1) * 2 ^ ((bl b.toNat : ℤ) - 1) := by
          rw [← zpow_add₀ (by norm_num : (2 : ℚ) ≠ 0)]
          ring_nf
      _ ≤ (2 : ℚ) ^ ((bl a.toNat : ℤ) - (bl b.toNat : ℤ) + 1) * b :=
          mul_le_mul_of_nonneg_left fb1 (zpow_pos (by norm_num) _).le
  have hok : ((if 0 ≤ (bl a.toNat : ℤ) - (bl b.toNat : ℤ)
        then decide (b * 2 ^ ((bl a.toNat : ℤ) - (bl b.toNat : ℤ)).toNat ≤ a)
        else decide (b ≤ a * 2 ^ (-((bl a.toNat : ℤ) - (bl b.toNat : ℤ))).toNat)) = true) ↔
      (2 : ℚ) ^ ((bl a.toNat : ℤ) - (bl b.toNat : ℤ)) ≤ (a : ℚ) / b := by
    by_cases hd : 0 ≤ (bl a.toNat : ℤ) - (bl b.toNat : ℤ)
    · rw [if_pos hd, decide_eq_true_eq, le_div_iff₀ hbQ]
      have hcast : ((2 ^ ((bl a.toNat : ℤ) - (bl b.toNat : ℤ)).toNat : ℤ) : ℚ) =
          (2 : ℚ) ^ ((bl a.toNat : ℤ) - (bl b.toNat : ℤ)) := by
        rw [intPow_cast_q, Int.toNat_of_nonneg hd]
      constructor
      · intro h
        have h2 : (b : ℚ) * ((2 ^ ((bl a.toNat : ℤ) - (bl b.toNat : ℤ)).toNat : ℤ) : ℚ) ≤
            (a : ℚ) := by exact_mod_cast h
        rw [hcast] at h2
        linarith
      · intro h
        have h2 : (b : ℚ) * ((2 ^ ((bl a.toNat : ℤ) - (bl b.toNat : ℤ)).toNat : ℤ) : ℚ) ≤
            (a : ℚ) := by
          rw [hcast]
          linarith
        exact_mod_cast h2
    · rw [if_neg hd, decide_eq_true_eq, le_div_iff₀ hbQ]
      push_neg at hd
      have hcast : ((2 ^ (-((bl a.toNat : ℤ) - (bl b.toNat : ℤ))).toNat : ℤ) : ℚ) =
          (2 : ℚ) ^ (-((bl a.toNat : ℤ) - (bl b.toNat : ℤ))) := by
        rw [intPow_cast_q, Int.toNat_of_nonneg (by omega)]
      constructor
      · intro h
        have h2 : (b : ℚ) ≤ (a : ℚ) *
            ((2 ^ (-((bl a.toNat : ℤ) - (bl b.toNat : ℤ))).toNat : ℤ) : ℚ) := by
          exact_mod_cast h
        rw [hcast] at h2
        have h3 := mul_le_mul_of_nonneg_right h2
          (zpow_pos (by norm_num : (0 : ℚ) < 2) ((bl a.toNat : ℤ) - (bl b.toNat : ℤ))).le
        rw [mul_assoc, ← zpow_add₀ (by norm_num : (2 : ℚ) ≠ 0)] at h3
        simp only [neg_add_cancel, zpow_zero, mul_one] at h3
        linarith
      · intro h
        have h3 := mul_le_mul_of_nonneg_right h
          (zpow_pos (by norm_num : (0 : ℚ) < 2) (-((bl a.toNat : ℤ) - (bl b.toNat : ℤ)))).le
        rw [mul_comm ((2 : ℚ) ^ ((bl a.toNat : ℤ) - (bl b.toNat : ℤ))) (b : ℚ), mul_assoc,
          ← zpow_add₀ (by norm_num : (2 : ℚ) ≠ 0)] at h3
        simp only [add_neg_cancel, zpow_zero, mul_one] at h3
        rw [← hcast] at h3
        exact_mod_cast h3
  simp only [ilog]
  by_cases hcond : (if 0 ≤ (bl a.toNat : ℤ) - (bl b.toNat : ℤ)
      then decide (b * 2 ^ ((bl a.toNat : ℤ) - (bl b.toNat : ℤ)).toNat ≤ a)
      else decide (b ≤ a * 2 ^ (-((bl a.toNat : ℤ) - (bl b.toNat : ℤ))).toNat)) = true
  · rw [if_pos hcond]
    exact ⟨hok.mp hcond, hhigh⟩
  · rw [if_neg hcond]
    have hnot : ¬ ((2 : ℚ) ^ ((bl a.toNat : ℤ) - (bl b.toNat : ℤ)) ≤ (a : ℚ) / b) :=
      fun hcon => hcond (hok.mpr hcon)
    push_neg at hnot
    constructor
    · exact hlow
    · calc (a : ℚ) / b < 2 ^ ((bl a.toNat : ℤ) - (bl b.toNat : ℤ)) := hnot
        _ = 2 ^ ((bl a.toNat : ℤ) - (bl b.toNat : ℤ) - 1 + 1) := by ring_nf
  done

/-- The integer exponent search computes `Int.log 2` of the quotient. -/
theorem ilog_eq_log {a b : ℤ} (ha : 0 < a) (hb : 0 < b) :
    ilog a b = Int.log 2 ((a : ℚ) / b) := by
  obtain ⟨h1, h2⟩ := ilog_spec ha hb
  exact (log2_eq_of h1 h2).symm

theorem flInt_zero (b : ℤ) : flInt 0 b = (0, 0) := by
  unfold flInt
  rw [if_pos rfl]

theorem flInt_neg (a b : ℤ) : flInt (-a) b = (-(flInt a b).1, (flInt a b).2) := by
  by_cases h : a = 0
  · subst h
    simp [flInt_zero]
  · unfold flInt
    rw [if_neg (by omega : ¬ (-a = 0)), if_neg h]
    simp only [abs_neg]
    rcases lt_trichotomy a 0 with h1 | h1 | h1
    · rw [if_neg (by omega : ¬ (-a < 0)), if_pos h1]
      simp
    · exact absurd h1 h
    · rw [if_pos (by omega : -a < 0), if_neg (by omega : ¬ (a < 0))]

theorem dyadicVal_neg (m k : ℤ) : dyadicVal (-m, k) = -dyadicVal (m, k) := by
  unfold dyadicVal
  push_cast
  ring

/-- For positive inputs the integer rounding routine computes the
rational-level positive rounding. -/
theorem flInt_val_pos {a b : ℤ} (ha : 0 < a) (hb : 0 < b) :
    dyadicVal (flInt a b) = flQpos ((a : ℚ) / b) := by
  have hlog : Int.log 2 ((a : ℚ) / b) = ilog a b := (ilog_eq_log ha hb).symm
  unfold flInt
  rw [if_neg (by omega : ¬ a = 0)]
  simp only [abs_of_pos ha]
  rw [if_neg (by omega : ¬ a < 0)]
  unfold dyadicVal flQpos
  rw [hlog]
  congr 2
  by_cases h52 : 0 ≤ 52 - ilog a b
  · rw [if_pos h52, rneInt_eq _ hb]
    congr 1
    have hc : ((2 ^ (52 - ilog a b).toNat : ℤ) : ℚ) = (2 : ℚ) ^ ((52 : ℤ) - ilog a b) := by
      rw [intPow_cast_q, Int.toNat_of_nonneg h52]
    rw [Int.cast_mul, hc]
    ring
  · rw [if_neg h52, rneInt_eq _ (by positivity)]
    congr 1
    have hc : ((2 ^ (ilog a b - 52).toNat : ℤ) : ℚ) = (2 : ℚ) ^ (ilog a b - (52 : ℤ)) := by
      rw [intPow_cast_q, Int.toNat_of_nonneg (by omega)]
    rw [Int.cast_mul, hc, div_mul_eq_div_div,
      div_eq_mul_inv ((a : ℚ) / b) ((2 : ℚ) ^ (ilog a b - (52 : ℤ))), ← zpow_neg]
    congr 1
    ring

/-- The integer rounding routine computes the rational-level binary64
rounding of `a / b`. -/
theorem flInt_val {a b : ℤ} (hb : 0 < b) : dyadicVal (flInt a b) = flQ ((a : ℚ) / b) := by
  have hbQ : (0 : ℚ) < b := by exact_mod_cast hb
  rcases lt_trichotomy a 0 with ha | ha | ha
  · have hpos : 0 < -a := by omega
    have h1 : flInt a b = (-(flInt (-a) b).1, (flInt (-a) b).2) := by
      have h2 := flInt_neg (-a) b
      rw [neg_neg] at h2
      rw [h2]
    rw [h1, show ((-(flInt (-a) b).1, (flInt (-a) b).2) : ℤ × ℤ) =
      (-((flInt (-a) b).1), (flInt (-a) b).2) from rfl, dyadicVal_neg,
      show (((flInt (-a) b).1, (flInt (-a) b).2) : ℤ × ℤ) = flInt (-a) b from rfl,
      flInt_val_pos hpos hb]
    have hcast : (((-a : ℤ) : ℚ)) / b = -((a : ℚ) / b) := by
      push_cast
      ring
    rw [hcast]
    have hneg : (a : ℚ) / b < 0 := div_neg_of_neg_of_pos (by exact_mod_cast ha) hbQ
    unfold flQ
    rw [if_neg (ne_of_lt hneg), if_neg (not_lt.mpr hneg.le)]
  · subst ha
    rw [flInt_zero]
    unfold dyadicVal flQ
    simp
  · rw [flInt_val_pos ha hb]
    have hpos : 0 < (a : ℚ) / b := div_pos (by exact_mod_cast ha) hbQ
    unfold flQ
    rw [if_neg (ne_of_gt hpos), if_pos hpos]

theorem mul100_den_pos (p : ℤ × ℤ) : 0 < (mul100 p).2 := by
  unfold mul100
  split
  · norm_num
  · simp only []
    positivity

theorem mul100_val (p : ℤ × ℤ) :
    ((mul100 p).1 : ℚ) / ((mul100 p).2 : ℚ) = dyadicVal p * 100 := by
  unfold mul100 dyadicVal
  split
  · rename_i h
    have hc : ((2 ^ p.2.toNat : ℤ) : ℚ) = (2 : ℚ) ^ p.2 := by
      rw [intPow_cast_q, Int.toNat_of_nonneg h]
    simp only []
    rw [Int.cast_mul, Int.cast_mul, hc]
    push_cast
    field_simp
    ring
  · rename_i h
    push_neg at h
    have hc : ((2 ^ (-p.2).toNat : ℤ) : ℚ) = (2 : ℚ) ^ (-p.2) := by
      rw [intPow_cast_q, Int.toNat_of_nonneg (by omega)]
    simp only []
    rw [Int.cast_mul, hc, div_eq_mul_inv, ← zpow_neg, neg_neg]
    push_cast
    ring

theorem pyInt_intCast (z : ℤ) : pyInt (z : ℚ) = z := by
  unfold pyInt
  split
  · rw [show -(z : ℚ) = ((-z : ℤ) : ℚ) by push_cast; ring, Int.floor_intCast]
    ring
  · rw [Int.floor_intCast]

/-- The dyadic truncation routine is Python `int()` of the value. -/
theorem truncDyadic_eq (p : ℤ × ℤ) : truncDyadic p = pyInt (dyadicVal p) := by
  unfold truncDyadic dyadicVal
  split
  · rename_i h
    have hc : ((2 ^ p.2.toNat : ℤ) : ℚ) = (2 : ℚ) ^ p.2 := by
      rw [intPow_cast_q, Int.toNat_of_nonneg h]
    rw [show (p.1 : ℚ) * 2 ^ p.2 = ((p.1 * 2 ^ p.2.toNat : ℤ) : ℚ) by
      rw [Int.cast_mul, hc], pyInt_intCast]
  · rename_i h
    push_neg at h
    have hjpos : (0 : ℤ) < 2 ^ (-p.2).toNat := by positivity
    have hval : (p.1 : ℚ) * 2 ^ p.2 = (p.1 : ℚ) / ((2 ^ (-p.2).toNat : ℤ) : ℚ) := by
      rw [intPow_cast_q, Int.toNat_of_nonneg (by omega : (0 : ℤ) ≤ -p.2),
        div_eq_mul_inv, ← zpow_neg, neg_neg]
    rw [hval]
    rcases le_or_lt 0 p.1 with hp | hp
    · have hnn : (0 : ℚ) ≤ (p.1 : ℚ) / ((2 ^ (-p.2).toNat : ℤ) : ℚ) := by positivity
      unfold pyInt
      rw [if_neg (not_lt.mpr hnn), floor_int_div _ hjpos, Int.fdiv_eq_ediv _ hjpos.le,
        Int.tdiv_eq_ediv hp hjpos.le]
    · have hneg : (p.1 : ℚ) / ((2 ^ (-p.2).toNat : ℤ) : ℚ) < 0 :=
        div_neg_of_neg_of_pos (by exact_mod_cast hp) (by exact_mod_cast hjpos)
      unfold pyInt
      rw [if_pos hneg,
        show -((p.1 : ℚ) / ((2 ^ (-p.2).toNat : ℤ) : ℚ)) =
          ((-p.1 : ℤ) : ℚ) / ((2 ^ (-p.2).toNat : ℤ) : ℚ) by push_cast; ring,
        floor_int_div _ hjpos, Int.fdiv_eq_ediv _ hjpos.le,
        ← Int.tdiv_eq_ediv (by omega) hjpos.le, Int.neg_tdiv]
      ring

theorem pyInt_mono {x y : ℚ} (h : x ≤ y) : pyInt x ≤ pyInt y := by
  unfold pyInt
  split
  · rename_i hx
    split
    · have hfm := Int.floor_le_floor (neg_le_neg h)
      omega
    · rename_i hy
      push_neg at hy
      have h1 : 0 ≤ ⌊y⌋ := Int.floor_nonneg.mpr hy
      have h2 : 0 ≤ ⌊-x⌋ := Int.floor_nonneg.mpr (by linarith)
      omega
  · rename_i hx
    push_neg at hx
    rw [if_neg (not_lt.mpr (le_trans hx h))]
    exact Int.floor_le_floor h

/-- `floatPct` is the binary64 pipeline on rationals: one rounded
division, one rounded multiplication by 100, one truncation. -/
theorem floatPct_eq {dp t : ℤ} (ht : 0 < t) :
    floatPct dp t = pyInt (flQ (flQ ((dp : ℚ) / t) * 100)) := by
  simp only [floatPct]
  rw [truncDyadic_eq, flInt_val (mul100_den_pos (flInt dp t)), mul100_val, flInt_val ht]

/-- The float pipeline is monotone in the dividend, for a fixed
positive divisor — each stage (exact division, binary64 rounding,
multiplication by 100, truncation) is monotone. -/
theorem floatPct_mono {t : ℤ} (ht : 0 < t) {d1 d2 : ℤ} (h : d1 ≤ d2) :
    floatPct d1 t ≤ floatPct d2 t := by
  rw [floatPct_eq ht, floatPct_eq ht]
  have htQ : (0 : ℚ) < t := by exact_mod_cast ht
  have h1 : (d1 : ℚ) / t ≤ (d2 : ℚ) / t :=
    (div_le_div_iff_of_pos_right htQ).mpr (by exact_mod_cast h)
  exact pyInt_mono (flQ_mono (mul_le_mul_of_nonneg_right (flQ_mono h1) (by norm_num)))

/-- Every total duration produced by the FarmDash16 catalog lookup
(including the unknown-species fallback) is positive. -/
theorem configFor16_total_pos (name : String) : 0 < (configFor16 name).totalDuration := by
  unfold configFor16 CROP_STAGES16
  repeat' split
  all_goals decide

/-- Every stage duration in the FarmDash16 catalog lookup is positive. -/
theorem configFor16_stage_days_pos (name : String) :
    ∀ s ∈ (configFor16 name).stages, 0 < s.days := by
  unfold configFor16 CROP_STAGES16
  repeat' split
  all_goals decide

/-- No stage in the FarmDash16 catalog carries the fallback data
triple (in particular, no stage is named "Ready"). -/
theorem configFor16_no_ready (name : String) :
    ∀ s ∈ (configFor16 name).stages, s.name ≠ "Ready" := by
  unfold configFor16 CROP_STAGES16
  repeat' split
  all_goals decide

/-- Every total duration produced by the FarmDash9 catalog lookup is
positive. -/
theorem duration9_pos (name : String) : 0 < duration9 name := by
  unfold duration9 CROP_STAGES9
  repeat' split
  all_goals decide

/-! ## Helper lemmas: the stage loop -/

instance : Inhabited StageDef := ⟨⟨"", 0, "", []⟩⟩

/-- `stageWalk` returns the data of the stage `findStage` finds, or the
initialised fallback when the loop falls through. -/
theorem stageWalk_eq_findStage (stages : List StageDef) (dp acc : ℤ) :
    stageWalk stages dp acc =
      match findStage stages dp acc with
      | some s => (s.name, s.icon, s.care)
      | none => readyFallback := by
  induction stages generalizing acc with
  | nil => rfl
  | cons x rest ih =>
    by_cases h : acc ≤ dp ∧ dp < acc + x.days
    · simp [stageWalk, findStage, h]
    · simp only [stageWalk, findStage, if_neg h]
      exact ih (acc + x.days)

/-- The stage loop falls through to the fallback exactly when
`days_passed` lies outside `[acc, acc + sum of durations)` — for
positive stage durations the matching windows tile that interval. -/
theorem findStage_eq_none_iff (stages : List StageDef) (dp acc : ℤ)
    (hpos : ∀ s ∈ stages, 0 < s.days) :
    findStage stages dp acc = none ↔
      dp < acc ∨ acc + (stages.map (fun s => s.days)).sum ≤ dp := by
  induction stages generalizing acc with
  | nil => simp [findStage]; omega
  | cons x rest ih =>
    have hx : 0 < x.days := hpos x (by simp)
    have hrest : ∀ s ∈ rest, 0 < s.days := fun s hs => hpos s (by simp [hs])
    have hsum : 0 ≤ (rest.map (fun s => s.days)).sum :=
      List.sum_nonneg (by
        intro v hv
        simp only [List.mem_map] at hv
        obtain ⟨s, hs, rfl⟩ := hv
        exact (hrest s hs).le)
    by_cases h : acc ≤ dp ∧ dp < acc + x.days
    · simp only [findStage, if_pos h, List.map_cons, List.sum_cons]
      constructor
      · intro hfalse; cases hfalse
      · intro hor; omega
    · simp only [findStage, if_neg h, List.map_cons, List.sum_cons]
      rw [ih (acc + x.days) hrest]
      push_neg at h
      omega

/-- Prefix sum of stage durations: the claim's "accumulated", the "sum
of durations of earlier stages, starting at 0". -/
def stagePrefixSum (stages : List StageDef) (i : ℕ) : ℤ :=
  ((stages.take i).map (fun s => s.days)).sum

/-- Modelled from the claim's wording: stage `i` matches when
`accumulated ≤ daysPassed < accumulated + s.durationDays`. -/
def stageMatches (stages : List StageDef) (dp : ℤ) (i : ℕ) : Prop :=
  stagePrefixSum stages i ≤ dp ∧
    dp < stagePrefixSum stages i + (stages.getD i default).days

instance (stages : List StageDef) (dp : ℤ) (i : ℕ) :
    Decidable (stageMatches stages dp i) := by
  unfold stageMatches
  infer_instance

/-- Modelled from the claim's wording: the first stage `s` in the
ordered stage list whose window contains `daysPassed`, if any. -/
def specStage (stages : List StageDef) (dp : ℤ) : Option StageDef :=
  ((List.range stages.length).find? (fun i => decide (stageMatches stages dp i))).map
    (fun i => stages.getD i default)

theorem stagePrefixSum_zero (stages : List StageDef) : stagePrefixSum stages 0 = 0 := by
  simp [stagePrefixSum]

theorem stagePrefixSum_cons_succ (x : StageDef) (rest : List StageDef) (i : ℕ) :
    stagePrefixSum (x :: rest) (i + 1) = x.days + stagePrefixSum rest i := by
  simp [stagePrefixSum]

/-- The loop's search coincides with the claim's "first stage such
that" search. -/
theorem findStage_eq_specStage (stages : List StageDef) (dp : ℤ) :
    findStage stages dp 0 = specStage stages dp := by
  have main : ∀ (l : List StageDef) (acc : ℤ),
      findStage l dp acc =
        ((List.range l.length).find? (fun i =>
            decide (acc + stagePrefixSum l i ≤ dp ∧
              dp < acc + stagePrefixSum l i + (l.getD i default).days))).map
          (fun i => l.getD i default) := by
    intro l
    induction l with
    | nil => intro acc; rfl
    | cons x rest ih =>
      intro acc
      rw [List.length_cons, List.range_succ_eq_map]
      rw [List.find?_cons]
      by_cases h : acc ≤ dp ∧ dp < acc + x.days
      · have hp0 : (decide (acc + stagePrefixSum (x :: rest) 0 ≤ dp ∧
            dp < acc + stagePrefixSum (x :: rest) 0 + ((x :: rest).getD 0 default).days)) = true := by
          simp only [stagePrefixSum_zero, List.getD_cons_zero, add_zero, decide_eq_true_eq]
          exact h
        rw [hp0]
        simp [findStage, h]
      · have hp0 : (decide (acc + stagePrefixSum (x :: rest) 0 ≤ dp ∧
            dp < acc + stagePrefixSum (x :: rest) 0 + ((x :: rest).getD 0 default).days)) = false := by
          simp only [stagePrefixSum_zero, List.getD_cons_zero, add_zero, decide_eq_false_iff_not]
          exact h
        rw [hp0, List.find?_map, Option.map_map]
        simp only [findStage, if_neg h]
        rw [ih (acc + x.days)]
        have hfun : ((fun i => (x :: rest).getD i default) ∘ Nat.succ) =
            (fun i => rest.getD i default) := by
          funext i
          simp [Nat.succ_eq_add_one, List.getD_cons_succ]
        have hpred : ((fun i => decide (acc + stagePrefixSum (x :: rest) i ≤ dp ∧
              dp < acc + stagePrefixSum (x :: rest) i + ((x :: rest).getD i default).days))
                ∘ Nat.succ) =
            (fun i => decide (acc + x.days + stagePrefixSum rest i ≤ dp ∧
              dp < acc + x.days + stagePrefixSum rest i + (rest.getD i default).days)) := by
          funext i
          simp only [Function.comp_apply, Nat.succ_eq_add_one, decide_eq_decide,
            stagePrefixSum_cons_succ, List.getD_cons_succ]
          omega
        rw [hfun, hpred]
  rw [main stages 0, specStage]
  congr 1
  congr 1
  funext i
  simp only [decide_eq_decide, stageMatches]
  omega

/-! ## Helper lemmas: the sort of FarmDash9.py -/

theorem sortLe_iff (a b : Enriched9) :
    sortLe a b = true ↔
      (a.is_harvested = false ∧ b.is_harvested = true) ∨
        (a.is_harvested = b.is_harvested ∧ (sortKey a).2 ≤ (sortKey b).2) := by
  simp only [sortLe, sortKey, Bool.or_eq_true, Bool.and_eq_true, Bool.not_eq_true',
    beq_iff_eq, decide_eq_true_eq]

theorem sortLe_trans (a b c : Enriched9)
    (hab : sortLe a b = true) (hbc : sortLe b c = true) : sortLe a c = true := by
  rw [sortLe_iff] at hab hbc ⊢
  rcases hab with ⟨ha, hb⟩ | ⟨hab, hk⟩ <;> rcases hbc with ⟨hb2, hc⟩ | ⟨hbc2, hk2⟩
  · rw [hb] at hb2; cases hb2
  · left; exact ⟨ha, hbc2 ▸ hb⟩
  · left; exact ⟨hab ▸ hb2, hc⟩
  · right; exact ⟨hab.trans hbc2, le_trans hk hk2⟩

theorem sortLe_total (a b : Enriched9) : (sortLe a b || sortLe b a) = true := by
  simp only [Bool.or_eq_true, sortLe_iff]
  rcases Bool.eq_false_or_eq_true a.is_harvested with ha | ha <;>
    rcases Bool.eq_false_or_eq_true b.is_harvested with hb | hb <;>
      simp [ha, hb]
  all_goals exact le_total _ _

/-! ## Helper lemmas: order preservation in FarmDash16.py -/

/-- When the FarmDash16 batch succeeds, it has one output per input,
positionally: the `i`-th output is the enrichment of the `i`-th input. -/
theorem process_crops_index (data : List Item) (now : ℤ) (outs : List Enriched16)
    (h : process_crops data now = some outs) :
    outs.length = data.length ∧
      ∀ (i : ℕ) (h1 : i < data.length) (h2 : i < outs.length),
        processItem16 (data.get ⟨i, h1⟩) now = some (outs.get ⟨i, h2⟩) := by
  induction data generalizing outs with
  | nil =>
    simp only [process_crops, Option.some_inj] at h
    subst h
    exact ⟨rfl, fun i h1 _ => absurd h1 (Nat.not_lt_zero i)⟩
  | cons item rest ih =>
    rcases hp : processItem16 item now with _ | e
    · rw [process_crops, hp] at h
      cases h
    · rcases hr : process_crops rest now with _ | es
      · rw [process_crops, hp, hr] at h
        cases h
      · rw [process_crops, hp, hr] at h
        have hcons : e :: es = outs := Option.some_inj.mp h
        subst hcons
        obtain ⟨hlen, hidx⟩ := ih es hr
        refine ⟨by simp [hlen], ?_⟩
        intro i h1 h2
        cases i with
        | zero => simpa using hp
        | succ j =>
          simp only [List.get_eq_getElem, List.getElem_cons_succ]
          have hj1 : j < rest.length := by simpa using h1
          have hj2 : j < es.length := by simpa using h2
          simpa using hidx j hj1 hj2

/-! ## Helper lemmas: the polygon-area accumulator -/

/-- The cyclic edge sum in zip form: vertices paired with the ring
rotated by one. -/
noncomputable def edgesSum (l : List (ℝ × ℝ)) : ℝ :=
  ((l.zip (l.rotate 1)).map (fun p => edgeTerm p.1 p.2)).sum

/-- Swapping the two endpoints of an edge negates its term (the
longitude difference flips sign; the latitude factor is symmetric). -/
theorem edgeTerm_swap (p q : ℝ × ℝ) : edgeTerm p q = -edgeTerm q p := by
  unfold edgeTerm radians
  ring

/-- A zipped map-sum over equal-length lists as an indexed sum. -/
theorem zip_map_sum (f : ℝ × ℝ → ℝ × ℝ → ℝ) :
    ∀ (a b : List (ℝ × ℝ)), a.length = b.length →
      ((a.zip b).map (fun p => f p.1 p.2)).sum =
        ∑ i ∈ Finset.range a.length, f (a.getD i (0, 0)) (b.getD i (0, 0)) := by
  intro a
  induction a with
  | nil =>
    intro b _
    simp
  | cons x xs ih =>
    intro b hb
    cases b with
    | nil => cases hb
    | cons y ys =>
      have hxy : xs.length = ys.length := by simpa using hb
      simp only [List.zip_cons_cons, List.map_cons, List.sum_cons, List.length_cons]
      rw [Finset.sum_range_succ']
      simp only [List.getD_cons_succ, List.getD_cons_zero]
      rw [ih ys hxy]
      ring

/-- The indexed accumulator of the source loop equals the zip form. -/
theorem areaAcc_eq_edgesSum (l : List (ℝ × ℝ)) (hl : l ≠ []) :
    areaAcc l = edgesSum l := by
  have hn : 0 < l.length := List.length_pos.mpr hl
  rw [edgesSum, zip_map_sum _ l (l.rotate 1) (List.length_rotate l 1).symm, areaAcc]
  apply Finset.sum_congr rfl
  intro i hi
  have hi' : i < l.length := Finset.mem_range.mp hi
  have hrot : i < (l.rotate 1).length := by
    rw [List.length_rotate]
    exact hi'
  have hmod : (i + 1) % l.length < l.length := Nat.mod_lt _ hn
  rw [List.getD_eq_getElem l (0, 0) hi', List.getD_eq_getElem l (0, 0) hmod,
    List.getD_eq_getElem (l.rotate 1) (0, 0) hrot, List.getElem_rotate]

/-- The spec's ring-pair sum equals the zip form. -/
theorem specAccum_eq_edgesSum (l : List (ℝ × ℝ)) : specAccum l = edgesSum l := by
  cases l with
  | nil => rfl
  | cons x xs =>
    rw [specAccum, edgesSum, ringPairs]
    congr 2
    rw [show (1 : ℕ) = 0 + 1 from rfl, List.rotate_cons_succ, List.rotate_zero]

/-- Zipping commutes with a simultaneous rotation of two equal-length
lists. -/
theorem zip_rotate {α β : Type} (a : List α) (b : List β) (h : a.length = b.length) (k : ℕ) :
    (a.rotate k).zip (b.rotate k) = (a.zip b).rotate k := by
  apply List.ext_getElem
  · simp [List.length_zip, List.length_rotate, h]
  · intro i h1 h2
    have hlen : (a.zip b).length = a.length := by simp [List.length_zip, h]
    have hi : i < a.length := by
      simpa [List.length_zip, List.length_rotate, h] using h1
    have hmod : (i + k) % a.length < a.length :=
      Nat.mod_lt _ (by omega)
    simp only [List.getElem_rotate, List.getElem_zip, hlen, List.length_rotate, h]

/-- Rotating the vertex ring leaves the cyclic edge sum unchanged: the
rotated ring's edges are a rotation of the original edges. -/
theorem edgesSum_rotate (l : List (ℝ × ℝ)) (k : ℕ) :
    edgesSum (l.rotate k) = edgesSum l := by
  unfold edgesSum
  have h1 : (l.rotate k).rotate 1 = (l.rotate 1).rotate k := by
    rw [List.rotate_rotate, List.rotate_rotate, Nat.add_comm]
  rw [h1, zip_rotate l (l.rotate 1) (List.length_rotate l 1).symm k]
  exact (((l.zip (l.rotate 1)).rotate_perm k).map _).sum_eq

/-- Reversing the vertex ring negates the cyclic edge sum: each edge
reappears with its endpoints swapped. -/
theorem areaAcc_reverse (l : List (ℝ × ℝ)) (hl : l ≠ []) :
    areaAcc (l.reverse) = -areaAcc l := by
  have hn : 0 < l.length := List.length_pos.mpr hl
  have hrev : areaAcc (l.reverse) =
      ∑ i ∈ Finset.range l.length,
        edgeTerm (l.reverse.getD i (0, 0))
          (l.reverse.getD ((i + 1) % l.length) (0, 0)) := by
    rw [areaAcc, List.length_reverse]
  rw [hrev, ← Finset.sum_range_reflect]
  have hstep : ∀ i ∈ Finset.range l.length,
      edgeTerm (l.reverse.getD (l.length - 1 - i) (0, 0))
          (l.reverse.getD ((l.length - 1 - i + 1) % l.length) (0, 0)) =
        edgeTerm (l.getD i (0, 0)) (l.getD ((i + (l.length - 1)) % l.length) (0, 0)) := by
    intro i hi
    have hi' : i < l.length := Finset.mem_range.mp hi
    have hb1 : l.length - 1 - i < l.reverse.length := by
      rw [List.length_reverse]; omega
    have hb1' : l.length - 1 - i < l.length := by omega
    have e1 : l.reverse.getD (l.length - 1 - i) (0, 0) = l.getD i (0, 0) := by
      rw [List.getD_eq_getElem _ _ hb1, List.getD_eq_getElem _ _ hi', List.getElem_reverse]
      congr 1
      omega
    have hsucc : l.length - 1 - i + 1 = l.length - i := by omega
    rcases Nat.eq_zero_or_pos i with hi0 | hipos
    · subst hi0
      have m1 : (l.length - 0) % l.length = 0 := by
        simp [Nat.mod_self]
      have m2 : (0 + (l.length - 1)) % l.length = l.length - 1 := by
        rw [Nat.zero_add, Nat.mod_eq_of_lt (by omega)]
      rw [e1, hsucc, m1, m2]
      have hb2 : (0 : ℕ) < l.reverse.length := by rw [List.length_reverse]; omega
      have hb2' : l.length - 1 < l.length := by omega
      rw [List.getD_eq_getElem _ _ hb2, List.getD_eq_getElem _ _ hb2', List.getElem_reverse]
      simp
    · have m1 : (l.length - i) % l.length = l.length - i := Nat.mod_eq_of_lt (by omega)
      have m2 : (i + (l.length - 1)) % l.length = i - 1 := by
        have h3 : i + (l.length - 1) = (i - 1) + l.length := by omega
        rw [h3, Nat.add_mod_right, Nat.mod_eq_of_lt (by omega)]
      have hb2 : l.length - i < l.reverse.length := by rw [List.length_reverse]; omega
      have hb2' : i - 1 < l.length := by omega
      rw [e1, hsucc, m1, m2, List.getD_eq_getElem _ _ hb2, List.getD_eq_getElem _ _ hb2',
        List.getElem_reverse]
      congr 2
      omega
  rw [Finset.sum_congr rfl hstep]
  have hneg : -areaAcc l =
      ∑ i ∈ Finset.range l.length,
        edgeTerm (l.getD ((i + 1) % l.length) (0, 0)) (l.getD i (0, 0)) := by
    rw [areaAcc, ← Finset.sum_neg_distrib]
    apply Finset.sum_congr rfl
    intro i _
    rw [edgeTerm_swap]
    exact neg_neg _
  rw [hneg]
  refine (Finset.sum_nbij' (fun a => (a + 1) % l.length)
    (fun a => (a + (l.length - 1)) % l.length) ?_ ?_ ?_ ?_ ?_).symm
  · intro a _
    exact Finset.mem_range.mpr (Nat.mod_lt _ hn)
  · intro a _
    exact Finset.mem_range.mpr (Nat.mod_lt _ hn)
  · intro a ha
    have ha' : a < l.length := Finset.mem_range.mp ha
    show ((a + 1) % l.length + (l.length - 1)) % l.length = a
    rw [Nat.mod_add_mod]
    have h3 : a + 1 + (l.length - 1) = a + l.length := by omega
    rw [h3, Nat.add_mod_right, Nat.mod_eq_of_lt ha']
  · intro a ha
    have ha' : a < l.length := Finset.mem_range.mp ha
    show ((a + (l.length - 1)) % l.length + 1) % l.length = a
    rw [Nat.mod_add_mod]
    have h3 : a + (l.length - 1) + 1 = a + l.length := by omega
    rw [h3, Nat.add_mod_right, Nat.mod_eq_of_lt ha']
  · intro a ha
    have ha' : a < l.length := Finset.mem_range.mp ha
    show edgeTerm (l.getD ((a + 1) % l.length) (0, 0)) (l.getD a (0, 0)) =
      edgeTerm (l.getD ((a + 1) % l.length) (0, 0))
        (l.getD (((a + 1) % l.length + (l.length - 1)) % l.length) (0, 0))
    have h4 : ((a + 1) % l.length + (l.length - 1)) % l.length = a := by
      rw [Nat.mod_add_mod]
      have h3 : a + 1 + (l.length - 1) = a + l.length := by omega
      rw [h3, Nat.add_mod_right, Nat.mod_eq_of_lt ha']
    rw [h4]

/-! ## Concrete inputs used by witnesses and counterexamples -/

/-- A Sweet Corn record from the default `crop_db`. -/
def cornItem : Item := ⟨"Sweet Corn", .pstr "2025-11-15", "600 seedlings", "4150 sqm", 45⟩

/-- A Beetroot record from the default `crop_db`. -/
def beetItem : Item := ⟨"Beetroot", .pstr "2025-11-30", "200 seedlings", "420 sqm", 12⟩

/-- An Onions record from the default `crop_db` of FarmDash9.py. -/
def onioItem : Item := ⟨"Onions", .pstr "2025-06-28", "15 kg", "3238 sqm", 110⟩

/-- A record whose planted date string does not parse as `YYYY-MM-DD`. -/
def badItem : Item := ⟨"Beetroot", .pstr "not-a-date", "1 unit", "1 sqm", 0⟩

/-- A Beetroot record planted in the future relative to the reference
dates used below. -/
def beetFuture : Item := ⟨"Beetroot", .pstr "2025-12-10", "200 seedlings", "420 sqm", 12⟩

/-! ## Claim theorems -/

/-- C10: for every input with fewer than 3 vertices (including the
empty list, a single vertex, and two vertices), `calculate_polygon_area`
returns 0 and does not raise an error (it is a total function whose
first guard returns 0). -/
theorem C10_degenerate (coords : List (ℝ × ℝ)) (h : coords.length < 3) :
    calculate_polygon_area coords = 0 := by
  rw [calculate_polygon_area, if_pos h]

/-- Witness for C10 at the two-vertex input `[(0,0), (1,1)]`. -/
theorem C10_witness : calculate_polygon_area [((0 : ℝ), (0 : ℝ)), (1, 1)] = 0 :=
  C10_degenerate _ (by decide)

/-- C4: for every polygon with at least 3 vertices,
`calculate_polygon_area` returns `abs(A) * R^2 / 2` with `R = 6378137`
and `A` the sum over consecutive vertex pairs, wrapping last to first,
of `radians(p2.lon - p1.lon) * (2 + sin(radians(p1.lat)) + sin(radians(p2.lat)))`. -/
theorem C4_area_formula (coords : List (ℝ × ℝ)) (h : 3 ≤ coords.length) :
    calculate_polygon_area coords = |specAccum coords| * Rearth ^ 2 / 2 := by
  have hne : coords ≠ [] := by
    intro hnil
    rw [hnil] at h
    simp at h
  rw [calculate_polygon_area, if_neg (by omega), areaAcc_eq_edgesSum coords hne,
    ← specAccum_eq_edgesSum]
  rw [abs_div, abs_mul, abs_mul]
  have hR : |Rearth| = Rearth := abs_of_nonneg (by norm_num [Rearth])
  rw [hR]
  norm_num
  ring

/-- Witness for C4 at a concrete square. -/
theorem C4_witness :
    calculate_polygon_area [((0 : ℝ), (0 : ℝ)), (0, 1), (1, 1), (1, 0)] =
      |specAccum [((0 : ℝ), (0 : ℝ)), (0, 1), (1, 1), (1, 0)]| * Rearth ^ 2 / 2 :=
  C4_area_formula _ (by decide)

/-- C1 counterexample: in FarmDash16.py's `process_crops`, one record
with an unparseable planted date aborts the whole batch — the Sweet
Corn record, which alone would be enriched, produces no output. -/
theorem C1_counterexample :
    parseDate "not-a-date" = none ∧
      process_crops [cornItem, badItem] (daysFromCivil 2025 12 5) = none ∧
      (process_crops [cornItem] (daysFromCivil 2025 12 5)).isSome = true := by
  refine ⟨rfl, ?_, ?_⟩ <;> decide

/-- C1 amended: in FarmDash9.py's `process_and_sort_crops`, every
record of the batch — including one whose planted date fails to parse,
which falls back to `p_date = now` — yields an enriched output record;
the result is a permutation (by the sort) of the per-record
enrichments, one per input. -/
theorem C1_amended (data : List Item) (now : ℤ) :
    (process_and_sort_crops data now).length = data.length ∧
      (process_and_sort_crops data now).Perm
        (data.map (fun item => processItem9 item now)) := by
  constructor
  · rw [process_and_sort_crops, List.length_mergeSort, List.length_map]
  · exact List.mergeSort_perm _ _

/-- C2 counterexample: FarmDash9.py's `process_and_sort_crops` does not
return records in input order: on `[Beetroot, Onions]` at reference
date 2025-11-20 both records are growing, the later-planted Beetroot
has the later ready date, so the sort must move the Onions record ahead
of it and the output cannot be the positional enrichment of the input. -/
theorem C2_counterexample :
    process_and_sort_crops [beetItem, onioItem] (daysFromCivil 2025 11 20) ≠
        [beetItem, onioItem].map
          (fun item => processItem9 item (daysFromCivil 2025 11 20)) ∧
      (processItem9 onioItem (daysFromCivil 2025 11 20)).ready_date <
        (processItem9 beetItem (daysFromCivil 2025 11 20)).ready_date ∧
      (processItem9 beetItem (daysFromCivil 2025 11 20)).is_harvested = false ∧
      (processItem9 onioItem (daysFromCivil 2025 11 20)).is_harvested = false := by
  refine ⟨?_, by decide, by decide, by decide⟩
  intro h
  have hp := List.sorted_mergeSort sortLe_trans sortLe_total
    ([beetItem, onioItem].map (fun item => processItem9 item (daysFromCivil 2025 11 20)))
  rw [show ([beetItem, onioItem].map
        (fun item => processItem9 item (daysFromCivil 2025 11 20))).mergeSort sortLe =
      process_and_sort_crops [beetItem, onioItem] (daysFromCivil 2025 11 20) from rfl, h] at hp
  simp only [List.map_cons, List.map_nil, List.pairwise_cons] at hp
  have hfirst := hp.1 (processItem9 onioItem (daysFromCivil 2025 11 20)) (by simp)
  have : sortLe (processItem9 beetItem (daysFromCivil 2025 11 20))
      (processItem9 onioItem (daysFromCivil 2025 11 20)) = false := by decide
  rw [this] at hfirst
  cases hfirst

/-- C2 amended: the non-sorting enrich operation (`process_crops` in
FarmDash16.py) preserves input order — when the batch succeeds, the
`i`-th output is the enrichment of the `i`-th input; the sorting
variant (`process_and_sort_crops` in FarmDash9.py) instead reorders by
its sort policy. -/
theorem C2_amended (data : List Item) (now : ℤ) (outs : List Enriched16)
    (h : process_crops data now = some outs) :
    outs.length = data.length ∧
      ∀ (i : ℕ) (h1 : i < data.length) (h2 : i < outs.length),
        processItem16 (data.get ⟨i, h1⟩) now = some (outs.get ⟨i, h2⟩) :=
  process_crops_index data now outs h

/-- Witness for C2 at the one-record batch `[cornItem]`. -/
theorem C2_witness :
    ((process_crops [cornItem] (daysFromCivil 2025 12 5)).getD []).length =
        [cornItem].length ∧
      ∀ (i : ℕ) (h1 : i < [cornItem].length)
        (h2 : i < ((process_crops [cornItem] (daysFromCivil 2025 12 5)).getD []).length),
        processItem16 ([cornItem].get ⟨i, h1⟩) (daysFromCivil 2025 12 5) =
          some (((process_crops [cornItem] (daysFromCivil 2025 12 5)).getD []).get ⟨i, h2⟩) :=
  C2_amended [cornItem] (daysFromCivil 2025 12 5)
    ((process_crops [cornItem] (daysFromCivil 2025 12 5)).getD []) (by decide)

/-- C3 counterexample: a Beetroot record whose reference date precedes
the planting date (`days_passed = -5`) falls to the "Ready" fallback
(care step "Harvest and cure.") even though `days_passed` is below the
total of the stage durations and the stage list is nonempty — the
claimed "exactly when" condition is violated. -/
theorem C3_counterexample :
    stageWalk (configFor16 "Beetroot").stages
        (daysFromCivil 2025 12 5 - daysFromCivil 2025 12 10) 0 = readyFallback ∧
      (enrichCore16 beetFuture (daysFromCivil 2025 12 10)
        (daysFromCivil 2025 12 5)).care_steps = ["Harvest and cure."] ∧
      ¬ ((((configFor16 "Beetroot").stages.map (fun s => s.days)).sum ≤
            daysFromCivil 2025 12 5 - daysFromCivil 2025 12 10) ∨
          (configFor16 "Beetroot").stages = []) := by
  refine ⟨by decide, by decide, ?_⟩
  decide

/-- C3 amended: for every record and reference date, the current stage
is the first stage whose window `accumulated ≤ daysPassed <
accumulated + durationDays` contains `daysPassed` (with `accumulated`
the sum of earlier durations); the record falls to the "Ready" fallback
exactly when `daysPassed < 0`, or `daysPassed ≥` the sum of all stage
durations, or the stage list is empty — the negative case is the
addition forced by the counterexample. -/
theorem C3_amended (item : Item) (p_day now : ℤ) :
    (stageWalk (configFor16 item.name).stages (now - p_day) 0 =
      match specStage (configFor16 item.name).stages (now - p_day) with
      | some s => (s.name, s.icon, s.care)
      | none => readyFallback) ∧
    (specStage (configFor16 item.name).stages (now - p_day) = none ↔
      now - p_day < 0 ∨
        ((configFor16 item.name).stages.map (fun s => s.days)).sum ≤ now - p_day ∨
        (configFor16 item.name).stages = []) ∧
    (enrichCore16 item p_day now).care_steps =
      (stageWalk (configFor16 item.name).stages (now - p_day) 0).2.2 := by
  refine ⟨?_, ?_, rfl⟩
  · rw [stageWalk_eq_findStage, findStage_eq_specStage]
  · rw [← findStage_eq_specStage,
      findStage_eq_none_iff _ _ _ (configFor16_stage_days_pos item.name)]
    constructor
    · rintro (h | h)
      · exact Or.inl h
      · exact Or.inr (Or.inl (by omega))
    · rintro (h | h | h)
      · exact Or.inl h
      · exact Or.inr (by omega)
      · rw [h]
        simp only [List.map_nil, List.sum_nil, add_zero]
        omega

/-! ## Field equations for the enrichment cores -/

theorem enrichCore16_fields (item : Item) (p_day now : ℤ) :
    (enrichCore16 item p_day now).days_left =
        (p_day + (configFor16 item.name).totalDuration) - now ∧
      (enrichCore16 item p_day now).is_harvested =
        decide ((p_day + (configFor16 item.name).totalDuration) - now < 0) ∧
      (enrichCore16 item p_day now).progress =
        (if (p_day + (configFor16 item.name).totalDuration) - now < 0 then (100 : ℤ)
         else max 0 (min 100
           (floatPct (now - p_day) (configFor16 item.name).totalDuration))) := by
  refine ⟨rfl, rfl, ?_⟩
  by_cases hh : (p_day + (configFor16 item.name).totalDuration) - now < 0
  · simp [enrichCore16, hh]
  · simp [enrichCore16, hh]

theorem enrichCore9_fields (item : Item) (p_day now : ℤ) :
    (enrichCore9 item p_day now).ready_date = p_day + duration9 item.name ∧
      (enrichCore9 item p_day now).is_harvested =
        decide ((p_day + duration9 item.name) - now < 0) ∧
      (enrichCore9 item p_day now).progress =
        (if (p_day + duration9 item.name) - now < 0 then (100 : ℤ)
         else max 0 (floatPct (now - p_day) (duration9 item.name))) := by
  refine ⟨rfl, rfl, ?_⟩
  have harg : duration9 item.name - ((p_day + duration9 item.name) - now) = now - p_day := by
    ring
  by_cases hh : (p_day + duration9 item.name) - now < 0
  · simp [enrichCore9, hh]
  · simp only [enrichCore9, hh, if_false, decide_eq_true_eq, if_neg hh]
    rw [harg]

/-- C5: refuted at a concrete input. For an Onions record
(total duration 150 days) at `daysPassed = 87`, not harvested in
either variant, the code computes `int((87 / 150) * 100)` in binary64
floating point, which yields 57, while the claimed formula
`clamp(floor(daysPassed / totalDurationDays * 100), 0, 100)` yields
58 (the exact quotient times 100 is exactly 58, but the rounded
binary64 quotient falls just below 0.58, and `int()` truncates). -/
theorem C5_float_divergence :
    (configFor16 "Onions").totalDuration = 150 ∧
      duration9 "Onions" = 150 ∧
      (enrichCore16 onioItem 0 87).is_harvested = false ∧
      (enrichCore16 onioItem 0 87).days_left = 63 ∧
      (enrichCore16 onioItem 0 87).progress = 57 ∧
      (enrichCore9 onioItem 0 87).is_harvested = false ∧
      (enrichCore9 onioItem 0 87).progress = 57 ∧
      specProgress 87 150 = 58 := by
  refine ⟨by decide, by decide, by decide, by decide, by decide, by decide, by decide, ?_⟩
  have h : ((87 : ℤ) : ℚ) / ((150 : ℤ) : ℚ) * 100 = ((58 : ℤ) : ℚ) := by
    norm_num
  unfold specProgress
  rw [h, Int.floor_intCast]
  decide

/-- C7: for a fixed record and planting date, `progress` in FarmDash16
is non-decreasing in the reference date, and once it reaches 100 it
stays at 100. -/
theorem C7_progress_monotone (item : Item) (p_day d1 d2 : ℤ) (h : d1 ≤ d2) :
    (enrichCore16 item p_day d1).progress ≤ (enrichCore16 item p_day d2).progress ∧
      ((enrichCore16 item p_day d1).progress = 100 →
        (enrichCore16 item p_day d2).progress = 100) := by
  obtain ⟨-, -, hp1⟩ := enrichCore16_fields item p_day d1
  obtain ⟨-, -, hp2⟩ := enrichCore16_fields item p_day d2
  have htot := configFor16_total_pos item.name
  have hb2 : (enrichCore16 item p_day d2).progress ≤ 100 := by
    rw [hp2]
    split
    · exact le_refl 100
    · exact max_le (by norm_num) (min_le_left _ _)
  have hmono :
      (enrichCore16 item p_day d1).progress ≤ (enrichCore16 item p_day d2).progress := by
    rw [hp1, hp2]
    by_cases h1 : (p_day + (configFor16 item.name).totalDuration) - d1 < 0
    · rw [if_pos h1, if_pos (by omega)]
    · rw [if_neg h1]
      by_cases h2 : (p_day + (configFor16 item.name).totalDuration) - d2 < 0
      · rw [if_pos h2]
        exact max_le (by norm_num) (min_le_left _ _)
      · rw [if_neg h2]
        exact max_le_max (le_refl 0)
          (min_le_min (le_refl 100) (floatPct_mono htot (by omega)))
  exact ⟨hmono, fun h100 => le_antisymm hb2 (h100 ▸ hmono)⟩

/-- Witness for C7 at a Beetroot record planted at day 0, reference
days 10 and 20. -/
theorem C7_witness :
    (enrichCore16 beetItem 0 10).progress ≤ (enrichCore16 beetItem 0 20).progress ∧
      ((enrichCore16 beetItem 0 10).progress = 100 →
        (enrichCore16 beetItem 0 20).progress = 100) :=
  C7_progress_monotone beetItem 0 10 20 (by decide)

/-- C8: a record whose reference date is exactly the ready date
(`daysPassed = totalDurationDays`) has `days_left = 0` and is not
harvested, in both variants (the strict `< 0` boundary). -/
theorem C8_boundary (item : Item) (p_day : ℤ) :
    (enrichCore16 item p_day
        (p_day + (configFor16 item.name).totalDuration)).days_left = 0 ∧
      (enrichCore16 item p_day
        (p_day + (configFor16 item.name).totalDuration)).is_harvested = false ∧
      (enrichCore9 item p_day (p_day + duration9 item.name)).is_harvested = false ∧
      (enrichCore9 item p_day (p_day + duration9 item.name)).ready_date =
        p_day + duration9 item.name := by
  obtain ⟨hd, hh, -⟩ :=
    enrichCore16_fields item p_day (p_day + (configFor16 item.name).totalDuration)
  obtain ⟨hr9, hh9, -⟩ := enrichCore9_fields item p_day (p_day + duration9 item.name)
  refine ⟨?_, ?_, ?_, hr9⟩
  · rw [hd, sub_self]
  · rw [hh, sub_self]
    decide
  · rw [hh9, sub_self]
    decide

/-- C6: the output of `process_and_sort_crops` is sorted by the
specified policy — no harvested record precedes a growing one; growing
records appear in non-decreasing `ready_date` order; harvested records
appear in non-increasing `ready_date` order (most recently ready
first). -/
theorem C6_sort_policy (data : List Item) (now : ℤ) :
    (process_and_sort_crops data now).Pairwise (fun a b =>
      (a.is_harvested = true → b.is_harvested = true) ∧
        (a.is_harvested = false → b.is_harvested = false →
          a.ready_date ≤ b.ready_date) ∧
        (a.is_harvested = true → b.is_harvested = true →
          b.ready_date ≤ a.ready_date)) := by
  have hs := List.sorted_mergeSort sortLe_trans sortLe_total
    (data.map (fun item => processItem9 item now))
  refine hs.imp ?_
  intro a b hab
  rw [sortLe_iff] at hab
  rcases hab with ⟨ha, hb⟩ | ⟨heq, hk⟩
  · refine ⟨fun _ => hb, fun _ hbf => ?_, fun hat _ => ?_⟩
    · rw [hb] at hbf
      cases hbf
    · rw [ha] at hat
      cases hat
  · refine ⟨fun h1 => heq ▸ h1, fun haf hbf => ?_, fun hat hbt => ?_⟩
    · simpa [sortKey, haf, hbf] using hk
    · simpa [sortKey, hat, hbt] using hk

/-- Witness for C1's amended theorem at a two-record batch containing
an unparseable date. -/
theorem C1_witness :
    (process_and_sort_crops [cornItem, badItem] (daysFromCivil 2025 12 5)).length =
        ([cornItem, badItem] : List Item).length ∧
      (process_and_sort_crops [cornItem, badItem] (daysFromCivil 2025 12 5)).Perm
        ([cornItem, badItem].map
          (fun item => processItem9 item (daysFromCivil 2025 12 5))) :=
  C1_amended [cornItem, badItem] (daysFromCivil 2025 12 5)

/-- Witness for C3's amended theorem at a Beetroot record planted at
day 0, reference day 5. -/
theorem C3_witness :
    (stageWalk (configFor16 beetItem.name).stages ((5 : ℤ) - 0) 0 =
      match specStage (configFor16 beetItem.name).stages ((5 : ℤ) - 0) with
      | some s => (s.name, s.icon, s.care)
      | none => readyFallback) ∧
    (specStage (configFor16 beetItem.name).stages ((5 : ℤ) - 0) = none ↔
      (5 : ℤ) - 0 < 0 ∨
        ((configFor16 beetItem.name).stages.map (fun s => s.days)).sum ≤ (5 : ℤ) - 0 ∨
        (configFor16 beetItem.name).stages = []) ∧
    (enrichCore16 beetItem 0 5).care_steps =
      (stageWalk (configFor16 beetItem.name).stages ((5 : ℤ) - 0) 0).2.2 :=
  C3_amended beetItem 0 5

/-- Witness for C6 at a two-record batch. -/
theorem C6_witness :
    (process_and_sort_crops [beetItem, onioItem] (daysFromCivil 2025 11 20)).Pairwise
      (fun a b =>
        (a.is_harvested = true → b.is_harvested = true) ∧
          (a.is_harvested = false → b.is_harvested = false →
            a.ready_date ≤ b.ready_date) ∧
          (a.is_harvested = true → b.is_harvested = true →
            b.ready_date ≤ a.ready_date)) :=
  C6_sort_policy [beetItem, onioItem] (daysFromCivil 2025 11 20)

/-- Witness for C8 at a Beetroot record planted at day 0. -/
theorem C8_witness :
    (enrichCore16 beetItem 0
        ((0 : ℤ) + (configFor16 beetItem.name).totalDuration)).days_left = 0 ∧
      (enrichCore16 beetItem 0
        ((0 : ℤ) + (configFor16 beetItem.name).totalDuration)).is_harvested = false ∧
      (enrichCore9 beetItem 0 ((0 : ℤ) + duration9 beetItem.name)).is_harvested = false ∧
      (enrichCore9 beetItem 0 ((0 : ℤ) + duration9 beetItem.name)).ready_date =
        (0 : ℤ) + duration9 beetItem.name :=
  C8_boundary beetItem 0

end FarmDash
